import Mathlib

set_option maxHeartbeats 1000000

/-!
# Task ordering engine — shallow embedding

This file embeds the task positioning and status-transition subsystem of the
repository (the `createTask` / `updateTask` / `moveTask` / `deleteTask`
handlers in `src/server/src/handlers/tasks.ts`) and proves properties of the
embedded operations.

Modelling conventions:
* The relational store is a record `DB` holding the task table as a list of
  rows, the set of existing project ids, the set of existing user ids (the
  collaborator `projectExists` / `userExists` checks are lookups in those
  lists), and the serial-id counter backing the `id` primary-key column.
* SQL `UPDATE ... WHERE range` statements become `List.map` with a
  conditional record update; `DELETE WHERE id` becomes `List.filter`;
  `SELECT MAX(position) WHERE project_id AND status` becomes `maxPos` of the
  filtered column; `INSERT` appends to the row list; `SELECT ... WHERE id
  LIMIT 1` becomes `List.find?`.
* `position` is an `Int` (SQL `integer` column, signed arithmetic).
* `created_at` / `updated_at` timestamps are omitted: they are wall-clock
  values the ordering logic never reads.
* JavaScript truthiness is modelled where the source relies on it:
  `if (input.assignee_id)` is true exactly for a present, non-zero id, and
  `input.assignee_id || null`, `input.description || null` collapse falsy
  values (`0`, `""`) to `null`.
-/

namespace Kanban

inductive TaskStatus where
  | todo
  | in_progress
  | review
  | done
deriving DecidableEq, Repr

inductive TaskPriority where
  | low
  | medium
  | high
deriving DecidableEq, Repr

/-- A row of the `tasks` table (schema: `tasksTable`). -/
structure Task where
  id : Nat
  title : String
  description : Option String
  project_id : Nat
  assignee_id : Option Nat
  priority : TaskPriority
  status : TaskStatus
  due_date : Option Int
  position : Int
  created_by : Nat
deriving DecidableEq, Repr

/-- The store: task rows plus the collaborator directories and the serial
counter that generates primary keys. -/
structure DB where
  projects : List Nat
  users : List Nat
  tasks : List Task
  nextId : Nat
deriving DecidableEq, Repr

/-- The distinguishable failures of the handlers (the source throws
`Error('Project not found')`, `Error('Creator user not found')`,
`Error('Assignee user not found')`, `Error('Task not found')`). -/
inductive HandlerError where
  | projectNotFound
  | creatorNotFound
  | assigneeNotFound
  | taskNotFound
deriving DecidableEq, Repr

structure CreateTaskInput where
  title : String
  description : Option String
  project_id : Nat
  assignee_id : Option Nat
  priority : TaskPriority
  status : TaskStatus
  due_date : Option Int
  created_by : Nat
deriving DecidableEq, Repr

/-- An `UpdateTaskInput` patch; the outer `Option` is JavaScript `undefined`
(field not supplied), the inner one on nullable columns is `null`. -/
structure UpdateTaskInput where
  id : Nat
  title : Option String
  description : Option (Option String)
  assignee_id : Option (Option Nat)
  priority : Option TaskPriority
  status : Option TaskStatus
  due_date : Option (Option Int)
  position : Option Int
deriving DecidableEq, Repr

structure MoveTaskInput where
  id : Nat
  status : TaskStatus
  position : Int
deriving DecidableEq, Repr

instance {ε α : Type} [DecidableEq ε] [DecidableEq α] : DecidableEq (Except ε α) :=
  fun a b =>
  match a, b with
  | .ok x, .ok y =>
    if h : x = y then isTrue (congrArg Except.ok h)
    else isFalse (fun hc => h (Except.ok.inj hc))
  | .error x, .error y =>
    if h : x = y then isTrue (congrArg Except.error h)
    else isFalse (fun hc => h (Except.error.inj hc))
  | .ok _, .error _ => isFalse (fun hc => Except.noConfusion hc)
  | .error _, .ok _ => isFalse (fun hc => Except.noConfusion hc)

/-- The Kanban column of a `(project_id, status)` pair: the rows matching the
`WHERE project_id = p AND status = s` filter, in table order. -/
def column (db : DB) (p : Nat) (s : TaskStatus) : List Task :=
  db.tasks.filter (fun t => decide (t.project_id = p ∧ t.status = s))

/-- `SELECT MAX(position)` over a list of rows: `none` on an empty selection. -/
def maxPos : List Task → Option Int
  | [] => none
  | t :: ts =>
    match maxPos ts with
    | none => some t.position
    | some m => some (max t.position m)

/-- JavaScript truthiness of an optional numeric id: `some 0` is falsy. -/
def idTruthy : Option Nat → Bool
  | some a => a != 0
  | none => false

/-- `x || null` on an optional numeric id. -/
def orNullNat (x : Option Nat) : Option Nat :=
  if idTruthy x then x else none

/-- `x || null` on an optional string (the empty string is falsy). -/
def orNullStr : Option String → Option String
  | some s => if s = "" then none else some s
  | none => none

/-- Handler `getTaskById`: `SELECT * FROM tasks WHERE id = ? LIMIT 1`. -/
def getTaskById (db : DB) (id : Nat) : Option Task :=
  db.tasks.find? (fun t => t.id == id)

/-- Handler `createTask` (`src/server/src/handlers/tasks.ts`, lines 8–79). -/
def createTask (db : DB) (input : CreateTaskInput) :
    Except HandlerError (Task × DB) :=
  if ¬ input.project_id ∈ db.projects then .error .projectNotFound
  else if ¬ input.created_by ∈ db.users then .error .creatorNotFound
  else if idTruthy input.assignee_id ∧ ¬ input.assignee_id.getD 0 ∈ db.users then
    .error .assigneeNotFound
  else
    let nextPosition : Int :=
      (maxPos (column db input.project_id input.status)).getD (-1) + 1
    let newTask : Task :=
      { id := db.nextId
        title := input.title
        description := orNullStr input.description
        project_id := input.project_id
        assignee_id := orNullNat input.assignee_id
        priority := input.priority
        status := input.status
        due_date := input.due_date
        position := nextPosition
        created_by := input.created_by }
    .ok (newTask, { db with tasks := db.tasks ++ [newTask], nextId := db.nextId + 1 })

/-- Handler `updateTask` (`src/server/src/handlers/tasks.ts`, lines 129–192). -/
def updateTask (db : DB) (input : UpdateTaskInput) :
    Except HandlerError (Task × DB) :=
  match getTaskById db input.id with
  | none => .error .taskNotFound
  | some existingTask =>
    let assigneeMissing : Bool :=
      match input.assignee_id with
      | some (some a) => decide (¬ a ∈ db.users)
      | _ => false
    if assigneeMissing then .error .assigneeNotFound
    else
      let newPosition : Option Int :=
        match input.status with
        | some s =>
          if s ≠ existingTask.status then
            some (input.position.getD
              ((maxPos (column db existingTask.project_id s)).getD (-1) + 1))
          else input.position
        | none => input.position
      let patch : Task → Task := fun t =>
        { t with
          title := input.title.getD t.title
          description := input.description.getD t.description
          assignee_id := input.assignee_id.getD t.assignee_id
          priority := input.priority.getD t.priority
          status := input.status.getD t.status
          due_date := input.due_date.getD t.due_date
          position := newPosition.getD t.position }
      let tasks2 := db.tasks.map (fun t => if t.id = input.id then patch t else t)
      match tasks2.find? (fun t => t.id == input.id) with
      | some t => .ok (t, { db with tasks := tasks2 })
      | none => .error .taskNotFound

/-- Handler `moveTask` (`src/server/src/handlers/tasks.ts`, lines 195–263).
The three raw-SQL range shifts become conditional maps over the table; the
final `UPDATE tasks SET status, position WHERE id` is the last map. -/
def moveTask (db : DB) (input : MoveTaskInput) :
    Except HandlerError (Task × DB) :=
  match getTaskById db input.id with
  | none => .error .taskNotFound
  | some existingTask =>
    let tasks1 : List Task :=
      if existingTask.status = input.status then
        if input.position < existingTask.position then
          db.tasks.map (fun t =>
            if t.project_id = existingTask.project_id ∧ t.status = input.status ∧
                input.position ≤ t.position ∧ t.position < existingTask.position then
              { t with position := t.position + 1 }
            else t)
        else if existingTask.position < input.position then
          db.tasks.map (fun t =>
            if t.project_id = existingTask.project_id ∧ t.status = input.status ∧
                existingTask.position < t.position ∧ t.position ≤ input.position then
              { t with position := t.position - 1 }
            else t)
        else db.tasks
      else
        (db.tasks.map (fun t =>
          if t.project_id = existingTask.project_id ∧ t.status = input.status ∧
              input.position ≤ t.position then
            { t with position := t.position + 1 }
          else t)).map (fun t =>
          if t.project_id = existingTask.project_id ∧ t.status = existingTask.status ∧
              existingTask.position < t.position then
            { t with position := t.position - 1 }
          else t)
    let tasks2 := tasks1.map (fun t =>
      if t.id = input.id then { t with status := input.status, position := input.position }
      else t)
    match tasks2.find? (fun t => t.id == input.id) with
    | some t => .ok (t, { db with tasks := tasks2 })
    | none => .error .taskNotFound

/-- Handler `deleteTask` (`src/server/src/handlers/tasks.ts`, lines 266–293).
Returns `false` on a missing id; otherwise deletes the row, compacts the
column, and returns `rowCount > 0`. -/
def deleteTask (db : DB) (id : Nat) : Bool × DB :=
  match getTaskById db id with
  | none => (false, db)
  | some existingTask =>
    let rowCount := (db.tasks.filter (fun t => t.id == id)).length
    let tasks1 := db.tasks.filter (fun t => t.id != id)
    let tasks2 := tasks1.map (fun t =>
      if t.project_id = existingTask.project_id ∧ t.status = existingTask.status ∧
          existingTask.position < t.position then
        { t with position := t.position - 1 }
      else t)
    (decide (0 < rowCount), { db with tasks := tasks2 })

/-- One call against the engine, for reasoning about call sequences. -/
inductive Op where
  | create (input : CreateTaskInput)
  | move (input : MoveTaskInput)
  | del (id : Nat)
deriving DecidableEq, Repr

/-- The store state after a call: a failed call (a thrown `NotFound`) leaves
the store unchanged, since every handler checks before it writes. -/
def applyOp (db : DB) : Op → DB
  | .create input =>
    match createTask db input with
    | .ok (_, db') => db'
    | .error _ => db
  | .move input =>
    match moveTask db input with
    | .ok (_, db') => db'
    | .error _ => db
  | .del id => (deleteTask db id).2

def run (db : DB) (ops : List Op) : DB := ops.foldl applyOp db

/-- A `moveTask` call whose target position is within the destination
column's bounds (`0 ≤ p < k` within a column of size `k`; `0 ≤ p ≤ k` when
entering a column of size `k` from another status). Calls on a missing id
are unconstrained — they mutate nothing. -/
def moveInBounds (db : DB) (input : MoveTaskInput) : Bool :=
  match getTaskById db input.id with
  | none => true
  | some ex =>
    if ex.status = input.status then
      decide (0 ≤ input.position ∧
        input.position < ((column db ex.project_id ex.status).length : Int))
    else
      decide (0 ≤ input.position ∧
        input.position ≤ ((column db ex.project_id input.status).length : Int))

def opInBounds (db : DB) : Op → Bool
  | .move input => moveInBounds db input
  | _ => true

/-- Every call of the sequence is in bounds at the state where it runs. -/
def boundedRun : DB → List Op → Bool
  | _, [] => true
  | db, op :: rest => opInBounds db op && boundedRun (applyOp db op) rest

/-- Positions of a list of rows, in row order. -/
def posns (c : List Task) : List Int := c.map (fun t => t.position)

/-- Dense zero-based ordering of a column: every position lies in
`[0, length)` and every index below `length` is occupied. -/
def DensePos (l : List Int) : Prop :=
  (∀ i ∈ l, 0 ≤ i ∧ i < (l.length : Int)) ∧
  ∀ n : Nat, n < l.length → (n : Int) ∈ l

instance (l : List Int) : Decidable (DensePos l) := by
  unfold DensePos; infer_instance

/-- The claim's phrasing of invariant I1: the set of position values of a
column is exactly `{0, …, k-1}` for `k` the number of tasks in it. -/
def PosSetIsRange (c : List Task) : Prop :=
  ∀ i : Int, (∃ t ∈ c, t.position = i) ↔ (0 ≤ i ∧ i < (c.length : Int))

/-- Invariant I2 of the spec: no two rows share `(project_id, status,
position)`. -/
def UniqueKeys (db : DB) : Prop :=
  (db.tasks.map (fun t => (t.project_id, t.status, t.position))).Nodup

instance (db : DB) : Decidable (UniqueKeys db) := by
  unfold UniqueKeys; infer_instance

/-- The `id` primary-key constraint of the `tasks` table (`serial
primaryKey` in the schema). -/
def NodupIds (db : DB) : Prop := (db.tasks.map (fun t => t.id)).Nodup

instance (db : DB) : Decidable (NodupIds db) := by
  unfold NodupIds; infer_instance

/-- The row a successful `createTask` inserts. -/
def newCreated (db : DB) (input : CreateTaskInput) : Task :=
  { id := db.nextId
    title := input.title
    description := orNullStr input.description
    project_id := input.project_id
    assignee_id := orNullNat input.assignee_id
    priority := input.priority
    status := input.status
    due_date := input.due_date
    position := (maxPos (column db input.project_id input.status)).getD (-1) + 1
    created_by := input.created_by }

/-- Spec §4, move Case A, written from the spec's words: the per-row effect
of a same-status `moveTask(id, s, p)` on a table whose moved row is `ex`.
Rows in `[p, ex.position)` shift up by one when `p < ex.position`, rows in
`(ex.position, p]` shift down by one when `p > ex.position`, the moved row
gets `(s, p)`, every other row is untouched. -/
def sameMoveF (ex : Task) (input : MoveTaskInput) (t : Task) : Task :=
  if t.id = input.id then
    { t with status := input.status, position := input.position }
  else if t.project_id = ex.project_id ∧ t.status = input.status ∧
      input.position ≤ t.position ∧ t.position < ex.position then
    { t with position := t.position + 1 }
  else if t.project_id = ex.project_id ∧ t.status = input.status ∧
      ex.position < t.position ∧ t.position ≤ input.position then
    { t with position := t.position - 1 }
  else t

/-- Spec §4, move Case B, written from the spec's words: the per-row effect
of a cross-status `moveTask(id, s, p)` on a table whose moved row is `ex`.
Destination rows at `position ≥ p` shift up, source rows strictly after the
moved row shift down, the moved row gets `(s, p)`, no other row changes. -/
def crossMoveF (ex : Task) (input : MoveTaskInput) (t : Task) : Task :=
  if t.id = input.id then
    { t with status := input.status, position := input.position }
  else if t.project_id = ex.project_id ∧ t.status = input.status ∧
      input.position ≤ t.position then
    { t with position := t.position + 1 }
  else if t.project_id = ex.project_id ∧ t.status = ex.status ∧
      ex.position < t.position then
    { t with position := t.position - 1 }
  else t

/-- Spec §4, delete compaction, written from the spec's words: remaining
rows of the deleted row's column strictly after it shift down by one. -/
def deleteShiftF (ex : Task) (t : Task) : Task :=
  if t.project_id = ex.project_id ∧ t.status = ex.status ∧
      ex.position < t.position then
    { t with position := t.position - 1 }
  else t

/-- Position arithmetic of a same-status move, on bare positions. -/
def sameShiftI (p d i : Int) : Int :=
  if p ≤ i ∧ i < d then i + 1 else if d < i ∧ i ≤ p then i - 1 else i

/-- Position arithmetic of the destination-column shift, on bare positions. -/
def tailShiftI (p i : Int) : Int := if p ≤ i then i + 1 else i

/-- Position arithmetic of delete compaction and the source-column shift. -/
def aboveShiftI (d i : Int) : Int := if d < i then i - 1 else i

/-- The committed store statements `moveTask` issues after its initial read,
in source order. Each `await db.execute(...)` / `await db.update(...)` of
the handler is one list entry; the source wraps them in no transaction, so
each one commits on its own. -/
def moveTaskStmts (db : DB) (input : MoveTaskInput) :
    List (List Task → List Task) :=
  match getTaskById db input.id with
  | none => []
  | some existingTask =>
    (if existingTask.status = input.status then
      if input.position < existingTask.position then
        [List.map (fun t =>
          if t.project_id = existingTask.project_id ∧ t.status = input.status ∧
              input.position ≤ t.position ∧ t.position < existingTask.position then
            { t with position := t.position + 1 }
          else t)]
      else if existingTask.position < input.position then
        [List.map (fun t =>
          if t.project_id = existingTask.project_id ∧ t.status = input.status ∧
              existingTask.position < t.position ∧ t.position ≤ input.position then
            { t with position := t.position - 1 }
          else t)]
      else []
    else
      [List.map (fun t =>
        if t.project_id = existingTask.project_id ∧ t.status = input.status ∧
            input.position ≤ t.position then
          { t with position := t.position + 1 }
        else t),
       List.map (fun t =>
        if t.project_id = existingTask.project_id ∧ t.status = existingTask.status ∧
            existingTask.position < t.position then
          { t with position := t.position - 1 }
        else t)]) ++
    [List.map (fun t =>
      if t.id = input.id then
        { t with status := input.status, position := input.position }
      else t)]

/-- The task table after the first `k` committed statements of a `moveTask`
call — the state an interrupted call leaves behind. -/
def movePrefixTasks (db : DB) (input : MoveTaskInput) (k : Nat) : List Task :=
  ((moveTaskStmts db input).take k).foldl (fun acc f => f acc) db.tasks

/-- A baseline row for the concrete scenarios below. -/
def baseTask : Task :=
  { id := 1, title := "A", description := none, project_id := 1,
    assignee_id := none, priority := .medium, status := .todo,
    due_date := none, position := 0, created_by := 1 }

/-- A baseline draft for the concrete scenarios below. -/
def baseCreate : CreateTaskInput :=
  { title := "A", description := none, project_id := 1, assignee_id := none,
    priority := .medium, status := .todo, due_date := none, created_by := 1 }

/-- One project, one user, no tasks. -/
def exEmptyDB : DB := { projects := [1], users := [1], tasks := [], nextId := 1 }

/-- Create a task, then move it to position 5 of its own one-task column. -/
def exGapOps : List Op := [.create baseCreate, .move ⟨1, .todo, 5⟩]

/-- Task 1 at `todo` position 0 and task 2 at `in_progress` position 0. -/
def exCrossDB : DB :=
  { projects := [1], users := [1], nextId := 3,
    tasks := [baseTask, { baseTask with id := 2, status := .in_progress }] }

/-- Move task 1 into the `in_progress` column at position 0. -/
def exCrossMove : MoveTaskInput := ⟨1, .in_progress, 0⟩

/-- A single-task column parked at position 5 (not dense). -/
def exSparseDB : DB :=
  { projects := [1], users := [1], nextId := 2,
    tasks := [{ baseTask with position := 5 }] }

/-- A draft whose `assignee_id` is the falsy id 0. -/
def exZeroAssignee : CreateTaskInput := { baseCreate with assignee_id := some 0 }

/-- Tasks 1, 2, 3 at `todo` positions 0, 1, 2 of project 1. -/
def exABC : DB :=
  { projects := [1], users := [1], nextId := 4,
    tasks := [baseTask, { baseTask with id := 2, position := 1 },
              { baseTask with id := 3, position := 2 }] }

/-- A patch that moves task 1 to `in_progress` without an explicit position. -/
def exUpdate : UpdateTaskInput :=
  { id := 1, title := none, description := none, assignee_id := none,
    priority := none, status := some .in_progress, due_date := none,
    position := none }

/-- The induction invariant behind the density property: primary keys are
unique and below the serial counter, and every column's position list is
dense and duplicate-free. -/
def Inv (db : DB) : Prop :=
  NodupIds db ∧ (∀ t ∈ db.tasks, t.id < db.nextId) ∧
  ∀ p s, DensePos (posns (column db p s)) ∧ (posns (column db p s)).Nodup

/-! ## Generic list lemmas -/

theorem filter_map_comm (l : List Task) (f : Task → Task) (p : Task → Bool)
    (h : ∀ t ∈ l, p (f t) = p t) :
    (l.map f).filter p = (l.filter p).map f := by
  induction l with
  | nil => rfl
  | cons a l ih =>
    have ha := h a (List.mem_cons_self a l)
    have ih' := ih fun t ht => h t (List.mem_cons_of_mem a ht)
    simp only [List.map_cons, List.filter_cons, ha]
    cases hpa : p a with
    | false => simpa using ih'
    | true => simp [ih']

theorem map_eq_self (l : List Task) (f : Task → Task) (h : ∀ t ∈ l, f t = t) :
    l.map f = l := by
  rw [List.map_congr_left h]
  exact List.map_id' l

theorem find?_map_of_id (l : List Task) (f : Task → Task) (i : Nat)
    (h : ∀ t, (f t).id = t.id) :
    (l.map f).find? (fun t => t.id == i) = (l.find? (fun t => t.id == i)).map f := by
  induction l with
  | nil => rfl
  | cons a l ih =>
    rw [List.map_cons, List.find?_cons, List.find?_cons]
    have hfa : ((f a).id == i) = (a.id == i) := by rw [h a]
    rw [hfa]
    cases a.id == i with
    | true => rfl
    | false => exact ih

theorem eq_of_same_id {l : List Task} (hids : (l.map (fun t => t.id)).Nodup)
    {u v : Task} (hu : u ∈ l) (hv : v ∈ l) (hid : u.id = v.id) : u = v :=
  List.inj_on_of_nodup_map hids hu hv hid

theorem filter_id_ne_eq_erase (l : List Task)
    (hids : (l.map (fun t => t.id)).Nodup) (t : Task) (ht : t ∈ l) :
    l.filter (fun u => u.id != t.id) = l.erase t := by
  induction l with
  | nil => cases ht
  | cons a l ih =>
    simp only [List.map_cons, List.nodup_cons] at hids
    by_cases hat : a = t
    · subst hat
      rw [List.erase_cons_head]
      simp only [List.filter_cons, bne_self_eq_false, cond_false]
      refine List.filter_eq_self.mpr fun u hu => ?_
      simp only [bne_iff_ne, ne_eq]
      exact fun he => hids.1 (he ▸ List.mem_map_of_mem _ hu)
    · have htl : t ∈ l := by
        rcases List.mem_cons.mp ht with he | h
        · exact absurd he.symm hat
        · exact h
      have hia : (a.id != t.id) = true := by
        simp only [bne_iff_ne, ne_eq]
        exact fun he => hids.1 (he ▸ List.mem_map_of_mem _ htl)
      have herase : (a :: l).erase t = a :: l.erase t :=
        List.erase_cons_tail (by simp_all)
      rw [herase]
      simp only [List.filter_cons, hia, if_true]
      rw [ih hids.2 htl]

/-! ## `maxPos` lemmas -/

theorem maxPos_eq_none {l : List Task} : maxPos l = none ↔ l = [] := by
  cases l with
  | nil => simp [maxPos]
  | cons a l =>
    simp only [maxPos]
    cases maxPos l <;> simp

theorem le_maxPos {l : List Task} {t : Task} (ht : t ∈ l) {m : Int}
    (h : maxPos l = some m) : t.position ≤ m := by
  induction l generalizing m with
  | nil => cases ht
  | cons a l ih =>
    cases hml : maxPos l with
    | none =>
      have h0 : l = [] := maxPos_eq_none.mp hml
      simp only [maxPos, hml, Option.some.injEq] at h
      rcases List.mem_cons.mp ht with rfl | h'
      · omega
      · rw [h0] at h'
        cases h'
    | some m' =>
      simp only [maxPos, hml, Option.some.injEq] at h
      rcases List.mem_cons.mp ht with rfl | h'
      · omega
      · have := ih h' hml
        omega

theorem maxPos_mem {l : List Task} {m : Int} (h : maxPos l = some m) :
    ∃ t ∈ l, t.position = m := by
  induction l generalizing m with
  | nil => simp [maxPos] at h
  | cons a l ih =>
    cases hml : maxPos l with
    | none =>
      simp only [maxPos, hml, Option.some.injEq] at h
      exact ⟨a, List.mem_cons_self a l, h⟩
    | some m' =>
      simp only [maxPos, hml, Option.some.injEq] at h
      rcases le_or_lt m' a.position with hle | hlt
      · exact ⟨a, List.mem_cons_self a l, by omega⟩
      · obtain ⟨t, htl, htm⟩ := ih hml
        exact ⟨t, List.mem_cons_of_mem a htl, by omega⟩

/-- On a dense column the code's `MAX(position) + 1` is the column length. -/
theorem nextPos_of_dense {c : List Task} (hd : DensePos (posns c)) :
    (maxPos c).getD (-1) + 1 = (c.length : Int) := by
  rcases eq_or_ne c [] with rfl | hne
  · simp [maxPos]
  · obtain ⟨m, hm⟩ : ∃ m, maxPos c = some m := by
      cases h : maxPos c with
      | none => exact absurd (maxPos_eq_none.mp h) hne
      | some m => exact ⟨m, rfl⟩
    obtain ⟨t, htc, htm⟩ := maxPos_mem hm
    have h1 : t.position < ((posns c).length : Int) :=
      (hd.1 t.position (List.mem_map_of_mem _ htc)).2
    have hlen : 0 < c.length := List.length_pos.mpr hne
    have h2 := hd.2 (c.length - 1) (by simp [posns]; omega)
    obtain ⟨u, huc, hup⟩ := List.mem_map.mp h2
    have h3 := le_maxPos huc hm
    simp only [posns, List.length_map] at h1
    rw [hm]
    simp only [Option.getD_some]
    have : ((c.length - 1 : Nat) : Int) = (c.length : Int) - 1 := by omega
    omega

/-- The code's `MAX(position) + 1` never collides with an existing position
of the selection, dense or not. -/
theorem nextPos_not_mem {c : List Task} :
    ((maxPos c).getD (-1) + 1) ∉ posns c := by
  intro hmem
  obtain ⟨t, htc, htp⟩ := List.mem_map.mp hmem
  cases h : maxPos c with
  | none =>
    rw [maxPos_eq_none.mp h] at htc
    cases htc
  | some m =>
    have := le_maxPos htc h
    rw [h] at htp
    simp only [Option.getD_some] at htp
    omega

/-! ## Shift arithmetic: Nodup preservation (no density assumed) -/

theorem nodup_same_shift {l : List Int} {p d : Int} (hd : d ∉ l) (h : l.Nodup) :
    (p :: l.map (sameShiftI p d)).Nodup := by
  rw [List.nodup_cons]
  constructor
  · intro hp
    obtain ⟨i, hil, hish⟩ := List.mem_map.mp hp
    have hid : i ≠ d := fun he => hd (he ▸ hil)
    unfold sameShiftI at hish
    split_ifs at hish <;> omega
  · refine List.Nodup.map_on ?_ h
    intro a ha b hb hab
    have had : a ≠ d := fun he => hd (he ▸ ha)
    have hbd : b ≠ d := fun he => hd (he ▸ hb)
    unfold sameShiftI at hab
    split_ifs at hab <;> omega

theorem nodup_tail_shift {l : List Int} {p : Int} (h : l.Nodup) :
    (p :: l.map (tailShiftI p)).Nodup := by
  rw [List.nodup_cons]
  constructor
  · intro hp
    obtain ⟨i, hil, hish⟩ := List.mem_map.mp hp
    unfold tailShiftI at hish
    split_ifs at hish <;> omega
  · refine List.Nodup.map_on ?_ h
    intro a ha b hb hab
    unfold tailShiftI at hab
    split_ifs at hab <;> omega

theorem nodup_above_shift {l : List Int} {d : Int} (hd : d ∉ l) (h : l.Nodup) :
    (l.map (aboveShiftI d)).Nodup := by
  refine List.Nodup.map_on ?_ h
  intro a ha b hb hab
  have had : a ≠ d := fun he => hd (he ▸ ha)
  have hbd : b ≠ d := fun he => hd (he ▸ hb)
  unfold aboveShiftI at hab
  split_ifs at hab <;> omega

/-! ## Shift arithmetic: density preservation -/

theorem densePos_perm {l₁ l₂ : List Int} (hp : l₁.Perm l₂) (h : DensePos l₁) :
    DensePos l₂ := by
  constructor
  · intro i hi
    rw [← hp.length_eq]
    exact h.1 i (hp.mem_iff.mpr hi)
  · intro n hn
    rw [← hp.length_eq] at hn
    exact hp.mem_iff.mp (h.2 n hn)

theorem mem_of_densePos {l : List Int} (h : DensePos l) {w : Int} (h0 : 0 ≤ w)
    (hw : w < (l.length : Int)) : w ∈ l := by
  have := h.2 w.toNat (by omega)
  rwa [Int.toNat_of_nonneg h0] at this

/-- `DensePos` of the position list is the claim's "position set is exactly
`{0,…,k-1}`". -/
theorem densePos_iff_posSetIsRange (c : List Task) :
    DensePos (posns c) ↔ PosSetIsRange c := by
  constructor
  · intro h i
    constructor
    · rintro ⟨t, htc, rfl⟩
      have := h.1 t.position (List.mem_map_of_mem _ htc)
      simpa [posns] using this
    · rintro ⟨h0, hlt⟩
      have hi : i ∈ posns c := by
        refine mem_of_densePos h h0 ?_
        simpa [posns] using hlt
      obtain ⟨t, htc, htp⟩ := List.mem_map.mp hi
      exact ⟨t, htc, htp⟩
  · intro h
    constructor
    · intro i hi
      obtain ⟨t, htc, rfl⟩ := List.mem_map.mp hi
      have := (h t.position).mp ⟨t, htc, rfl⟩
      simpa [posns] using this
    · intro n hn
      simp only [posns, List.length_map] at hn
      have := (h (n : Int)).mpr ⟨by omega, by simp [posns]; omega⟩
      obtain ⟨t, htc, htp⟩ := this
      exact List.mem_map.mpr ⟨t, htc, htp⟩

theorem dense_same_shift {l : List Int} {p d : Int} (hdense : DensePos (d :: l))
    (hnd : (d :: l).Nodup) (hp0 : 0 ≤ p) (hpk : p < ((d :: l).length : Int)) :
    DensePos (p :: l.map (sameShiftI p d)) := by
  have hdl : d ∉ l := (List.nodup_cons.mp hnd).1
  have hdb := hdense.1 d (List.mem_cons_self d l)
  have hmem : ∀ w : Int, 0 ≤ w → w < ((d :: l).length : Int) → w ≠ d → w ∈ l := by
    intro w h0 hw hwd
    have := mem_of_densePos hdense h0 hw
    rcases List.mem_cons.mp this with he | h'
    · exact absurd he hwd
    · exact h'
  simp only [List.length_cons] at hdb hpk hmem
  constructor
  · intro i hi
    simp only [List.length_cons, List.length_map]
    rcases List.mem_cons.mp hi with rfl | hi'
    · push_cast
      omega
    · obtain ⟨j, hjl, rfl⟩ := List.mem_map.mp hi'
      have hjb := hdense.1 j (List.mem_cons_of_mem d hjl)
      have hjd : j ≠ d := fun he => hdl (he ▸ hjl)
      simp only [List.length_cons] at hjb
      unfold sameShiftI
      split_ifs <;> push_cast <;> push_cast at hjb <;> omega
  · intro n hn
    simp only [List.length_cons, List.length_map] at hn
    by_cases hnp : (n : Int) = p
    · exact List.mem_cons.mpr (Or.inl hnp)
    · refine List.mem_cons_of_mem p (List.mem_map.mpr ?_)
      rcases lt_trichotomy p d with hpd | hpd | hpd
      · by_cases h1 : p < (n : Int) ∧ (n : Int) ≤ d
        · refine ⟨(n : Int) - 1, hmem _ (by omega) (by push_cast; omega) (by omega), ?_⟩
          unfold sameShiftI
          split_ifs <;> omega
        · refine ⟨(n : Int), hmem _ (by omega) (by push_cast; omega) (by omega), ?_⟩
          unfold sameShiftI
          split_ifs <;> omega
      · refine ⟨(n : Int), hmem _ (by omega) (by push_cast; omega) (by omega), ?_⟩
        unfold sameShiftI
        split_ifs <;> omega
      · by_cases h1 : d ≤ (n : Int) ∧ (n : Int) < p
        · refine ⟨(n : Int) + 1, hmem _ (by omega) (by push_cast; omega) (by omega), ?_⟩
          unfold sameShiftI
          split_ifs <;> omega
        · refine ⟨(n : Int), hmem _ (by omega) (by push_cast; omega) (by omega), ?_⟩
          unfold sameShiftI
          split_ifs <;> omega

theorem dense_tail_shift {l : List Int} {p : Int} (hdense : DensePos l)
    (hp0 : 0 ≤ p) (hpk : p ≤ (l.length : Int)) :
    DensePos (p :: l.map (tailShiftI p)) := by
  constructor
  · intro i hi
    simp only [List.length_cons, List.length_map]
    rcases List.mem_cons.mp hi with rfl | hi'
    · push_cast
      omega
    · obtain ⟨j, hjl, rfl⟩ := List.mem_map.mp hi'
      have hjb := hdense.1 j hjl
      unfold tailShiftI
      split_ifs <;> push_cast <;> omega
  · intro n hn
    simp only [List.length_cons, List.length_map] at hn
    by_cases hnp : (n : Int) = p
    · exact List.mem_cons.mpr (Or.inl hnp)
    · refine List.mem_cons_of_mem p (List.mem_map.mpr ?_)
      by_cases h1 : (n : Int) < p
      · refine ⟨(n : Int), mem_of_densePos hdense (by omega) (by omega), ?_⟩
        unfold tailShiftI
        split_ifs <;> omega
      · refine ⟨(n : Int) - 1, mem_of_densePos hdense (by omega) (by push_cast; omega), ?_⟩
        unfold tailShiftI
        split_ifs <;> omega

theorem dense_above_shift {l : List Int} {d : Int} (hdense : DensePos (d :: l))
    (hnd : (d :: l).Nodup) : DensePos (l.map (aboveShiftI d)) := by
  have hdl : d ∉ l := (List.nodup_cons.mp hnd).1
  have hdb := hdense.1 d (List.mem_cons_self d l)
  have hmem : ∀ w : Int, 0 ≤ w → w < ((d :: l).length : Int) → w ≠ d → w ∈ l := by
    intro w h0 hw hwd
    have := mem_of_densePos hdense h0 hw
    rcases List.mem_cons.mp this with he | h'
    · exact absurd he hwd
    · exact h'
  simp only [List.length_cons] at hdb hmem
  constructor
  · intro i hi
    simp only [List.length_map]
    obtain ⟨j, hjl, rfl⟩ := List.mem_map.mp hi
    have hjb := hdense.1 j (List.mem_cons_of_mem d hjl)
    have hjd : j ≠ d := fun he => hdl (he ▸ hjl)
    simp only [List.length_cons] at hjb
    unfold aboveShiftI
    split_ifs <;> push_cast <;> omega
  · intro n hn
    simp only [List.length_map] at hn
    refine List.mem_map.mpr ?_
    by_cases h1 : (n : Int) < d
    · refine ⟨(n : Int), hmem _ (by omega) (by push_cast; omega) (by omega), ?_⟩
      unfold aboveShiftI
      split_ifs <;> omega
    · refine ⟨(n : Int) + 1, hmem _ (by omega) (by push_cast; omega) (by omega), ?_⟩
      unfold aboveShiftI
      split_ifs <;> omega

theorem dense_append {l : List Int} (hdense : DensePos l) :
    DensePos (l ++ [(l.length : Int)]) := by
  constructor
  · intro i hi
    simp only [List.length_append, List.length_singleton]
    rcases List.mem_append.mp hi with h' | h'
    · have := hdense.1 i h'
      push_cast
      omega
    · simp only [List.mem_singleton] at h'
      subst h'
      push_cast
      omega
  · intro n hn
    simp only [List.length_append, List.length_singleton] at hn
    by_cases h1 : n < l.length
    · exact List.mem_append.mpr (Or.inl (hdense.2 n h1))
    · refine List.mem_append.mpr (Or.inr ?_)
      simp only [List.mem_singleton]
      omega

theorem nodup_append_of_not_mem {l : List Int} {x : Int} (hx : x ∉ l)
    (hnd : l.Nodup) : (l ++ [x]).Nodup := by
  rw [List.nodup_append]
  refine ⟨hnd, List.nodup_singleton x, ?_⟩
  intro a ha hax
  simp only [List.mem_singleton] at hax
  exact hx (hax ▸ ha)

theorem not_mem_of_densePos_length {l : List Int} (hdense : DensePos l) :
    (l.length : Int) ∉ l := fun h => by
  have := hdense.1 _ h
  omega

/-! ## Handler characterizations -/

theorem getTaskById_mem {db : DB} {i : Nat} {t : Task}
    (h : getTaskById db i = some t) : t ∈ db.tasks :=
  List.mem_of_find?_eq_some h

theorem getTaskById_id {db : DB} {i : Nat} {t : Task}
    (h : getTaskById db i = some t) : t.id = i := by
  have := List.find?_some h
  simpa using this

theorem sameMoveF_id (ex : Task) (input : MoveTaskInput) (t : Task) :
    (sameMoveF ex input t).id = t.id := by
  unfold sameMoveF
  split_ifs <;> rfl

theorem crossMoveF_id (ex : Task) (input : MoveTaskInput) (t : Task) :
    (crossMoveF ex input t).id = t.id := by
  unfold crossMoveF
  split_ifs <;> rfl

theorem deleteShiftF_id (ex : Task) (t : Task) :
    (deleteShiftF ex t).id = t.id := by
  unfold deleteShiftF
  split_ifs <;> rfl

/-- Success characterization of `createTask`: the row is appended and carries
`MAX(position)+1` (or 0) of its column. -/
theorem createTask_ok {db : DB} {input : CreateTaskInput}
    (hp : input.project_id ∈ db.projects) (hu : input.created_by ∈ db.users)
    (ha : idTruthy input.assignee_id = true → input.assignee_id.getD 0 ∈ db.users) :
    createTask db input = .ok (newCreated db input,
      { db with tasks := db.tasks ++ [newCreated db input], nextId := db.nextId + 1 }) := by
  unfold createTask
  rw [if_neg (by simpa using hp), if_neg (by simpa using hu),
    if_neg (fun hc => hc.2 (ha hc.1))]
  rfl

/-- `deleteTask` on a found row: the row is removed and its column compacted. -/
theorem deleteTask_eq {db : DB} {i : Nat} {ex : Task}
    (hids : NodupIds db) (hfind : getTaskById db i = some ex) :
    deleteTask db i =
      (true, { db with tasks := (db.tasks.erase ex).map (deleteShiftF ex) }) := by
  have hmem := getTaskById_mem hfind
  have hid := getTaskById_id hfind
  unfold deleteTask
  rw [hfind]
  have h1 : ex ∈ db.tasks.filter (fun t => t.id == i) :=
    List.mem_filter.mpr ⟨hmem, by simp [hid]⟩
  have h2 : 0 < (db.tasks.filter (fun t => t.id == i)).length :=
    List.length_pos.mpr (List.ne_nil_of_mem h1)
  have h3 : db.tasks.filter (fun t => t.id != i) = db.tasks.erase ex := by
    have h4 := filter_id_ne_eq_erase db.tasks hids ex hmem
    rw [← hid]
    exact h4
  simp only [h3, decide_eq_true h2]
  rfl

/-- Per-row action of the same-status `moveTask` branch with
`p < ex.position`: the composed handler maps agree with the spec's
description `sameMoveF`. -/
theorem sameMoveF_decomp_lt {ex : Task} {input : MoveTaskInput} {t : Task}
    (hp : input.position < ex.position)
    (htid : t.id = input.id → t = ex) :
    (fun u => if u.id = input.id then
        { u with status := input.status, position := input.position } else u)
      ((fun u => if u.project_id = ex.project_id ∧ u.status = input.status ∧
          input.position ≤ u.position ∧ u.position < ex.position then
        { u with position := u.position + 1 } else u) t) =
    sameMoveF ex input t := by
  beta_reduce
  unfold sameMoveF
  by_cases hti : t.id = input.id
  · have hc1 : ¬(t.project_id = ex.project_id ∧ t.status = input.status ∧
        input.position ≤ t.position ∧ t.position < ex.position) := by
      rintro ⟨-, -, -, h4⟩
      rw [htid hti] at h4
      omega
    rw [if_neg hc1, if_pos hti, if_pos hti]
  · by_cases hc1 : t.project_id = ex.project_id ∧ t.status = input.status ∧
        input.position ≤ t.position ∧ t.position < ex.position
    · rw [if_pos hc1,
        if_neg (show ¬({ t with position := t.position + 1 } : Task).id = input.id from hti),
        if_neg hti, if_pos hc1]
    · have hc2 : ¬(t.project_id = ex.project_id ∧ t.status = input.status ∧
          ex.position < t.position ∧ t.position ≤ input.position) := by
        rintro ⟨-, -, h3, h4⟩
        omega
      rw [if_neg hc1, if_neg hti, if_neg hti, if_neg hc1, if_neg hc2]

/-- Per-row action of the same-status `moveTask` branch with
`p > ex.position`. -/
theorem sameMoveF_decomp_gt {ex : Task} {input : MoveTaskInput} {t : Task}
    (hp : ex.position < input.position)
    (htid : t.id = input.id → t = ex) :
    (fun u => if u.id = input.id then
        { u with status := input.status, position := input.position } else u)
      ((fun u => if u.project_id = ex.project_id ∧ u.status = input.status ∧
          ex.position < u.position ∧ u.position ≤ input.position then
        { u with position := u.position - 1 } else u) t) =
    sameMoveF ex input t := by
  beta_reduce
  unfold sameMoveF
  by_cases hti : t.id = input.id
  · have hc2 : ¬(t.project_id = ex.project_id ∧ t.status = input.status ∧
        ex.position < t.position ∧ t.position ≤ input.position) := by
      rintro ⟨-, -, h3, -⟩
      rw [htid hti] at h3
      omega
    rw [if_neg hc2, if_pos hti, if_pos hti]
  · have hc1 : ¬(t.project_id = ex.project_id ∧ t.status = input.status ∧
        input.position ≤ t.position ∧ t.position < ex.position) := by
      rintro ⟨-, -, h3, h4⟩
      omega
    by_cases hc2 : t.project_id = ex.project_id ∧ t.status = input.status ∧
        ex.position < t.position ∧ t.position ≤ input.position
    · rw [if_pos hc2,
        if_neg (show ¬({ t with position := t.position - 1 } : Task).id = input.id from hti),
        if_neg hti, if_neg hc1]
    · rw [if_neg hc2, if_neg hti, if_neg hti, if_neg hc1]

/-- Per-row action of the same-status `moveTask` branch with
`p = ex.position` (no shift statement is issued). -/
theorem sameMoveF_decomp_eq {ex : Task} {input : MoveTaskInput} {t : Task}
    (hp : ex.position = input.position)
    (htid : t.id = input.id → t = ex) :
    (fun u => if u.id = input.id then
        { u with status := input.status, position := input.position } else u) t =
    sameMoveF ex input t := by
  beta_reduce
  unfold sameMoveF
  by_cases hti : t.id = input.id
  · rw [if_pos hti, if_pos hti]
  · have hc1 : ¬(t.project_id = ex.project_id ∧ t.status = input.status ∧
        input.position ≤ t.position ∧ t.position < ex.position) := by
      rintro ⟨-, -, h3, h4⟩
      omega
    have hc2 : ¬(t.project_id = ex.project_id ∧ t.status = input.status ∧
        ex.position < t.position ∧ t.position ≤ input.position) := by
      rintro ⟨-, -, h3, h4⟩
      omega
    rw [if_neg hti, if_neg hti, if_neg hc1, if_neg hc2]

/-- Per-row action of the cross-status `moveTask` branch: the three handler
maps agree with the spec's description `crossMoveF`. -/
theorem crossMoveF_decomp {ex : Task} {input : MoveTaskInput} {t : Task}
    (hs : ¬ ex.status = input.status)
    (htid : t.id = input.id → t = ex) :
    (fun u => if u.id = input.id then
        { u with status := input.status, position := input.position } else u)
      ((fun u => if u.project_id = ex.project_id ∧ u.status = ex.status ∧
          ex.position < u.position then
        { u with position := u.position - 1 } else u)
      ((fun u => if u.project_id = ex.project_id ∧ u.status = input.status ∧
          input.position ≤ u.position then
        { u with position := u.position + 1 } else u) t)) =
    crossMoveF ex input t := by
  beta_reduce
  unfold crossMoveF
  by_cases hti : t.id = input.id
  · have ht := htid hti
    have hc1 : ¬(t.project_id = ex.project_id ∧ t.status = input.status ∧
        input.position ≤ t.position) := by
      rintro ⟨-, h2, -⟩
      rw [ht] at h2
      exact hs h2
    have hc2 : ¬(t.project_id = ex.project_id ∧ t.status = ex.status ∧
        ex.position < t.position) := by
      rintro ⟨-, -, h3⟩
      rw [ht] at h3
      omega
    rw [if_neg hc1, if_neg hc2, if_pos hti, if_pos hti]
  · by_cases hc1 : t.project_id = ex.project_id ∧ t.status = input.status ∧
        input.position ≤ t.position
    · have hc2 : ¬(({ t with position := t.position + 1 } : Task).project_id = ex.project_id ∧
          ({ t with position := t.position + 1 } : Task).status = ex.status ∧
          ex.position < ({ t with position := t.position + 1 } : Task).position) := by
        rintro ⟨-, h2, -⟩
        exact hs ((hc1.2.1 ▸ h2).symm)
      rw [if_pos hc1, if_neg hc2,
        if_neg (show ¬({ t with position := t.position + 1 } : Task).id = input.id from hti),
        if_neg hti, if_pos hc1]
    · by_cases hc2 : t.project_id = ex.project_id ∧ t.status = ex.status ∧
          ex.position < t.position
      · rw [if_neg hc1, if_pos hc2,
          if_neg (show ¬({ t with position := t.position - 1 } : Task).id = input.id from hti),
          if_neg hti, if_neg hc1]
      · rw [if_neg hc1, if_neg hc2, if_neg hti, if_neg hti, if_neg hc1]

/-- Same-status `moveTask` on a found row equals the spec's per-row map
`sameMoveF` applied across the table. -/
theorem moveTask_same_eq {db : DB} {input : MoveTaskInput} {ex : Task}
    (hids : NodupIds db) (hfind : getTaskById db input.id = some ex)
    (hs : ex.status = input.status) :
    moveTask db input = .ok
      ({ ex with status := input.status, position := input.position },
        { db with tasks := db.tasks.map (sameMoveF ex input) }) := by
  have hexmem := getTaskById_mem hfind
  have hexid := getTaskById_id hfind
  have htid : ∀ t ∈ db.tasks, t.id = input.id → t = ex := fun t htm hti =>
    eq_of_same_id hids htm hexmem (hti.trans hexid.symm)
  have hfind' : db.tasks.find? (fun t => t.id == input.id) = some ex := hfind
  have hf2 : (db.tasks.map (sameMoveF ex input)).find? (fun t => t.id == input.id) =
      some (sameMoveF ex input ex) := by
    rw [find?_map_of_id db.tasks _ input.id (sameMoveF_id ex input), hfind']
    rfl
  have hex2 : sameMoveF ex input ex =
      { ex with status := input.status, position := input.position } := by
    unfold sameMoveF
    rw [if_pos hexid]
  simp only [moveTask, hfind]
  rw [if_pos hs]
  rcases lt_trichotomy input.position ex.position with hp | hp | hp
  · rw [if_pos hp]
    have h12 : (db.tasks.map (fun t =>
        if t.project_id = ex.project_id ∧ t.status = input.status ∧
            input.position ≤ t.position ∧ t.position < ex.position then
          { t with position := t.position + 1 }
        else t)).map (fun t =>
        if t.id = input.id then
          { t with status := input.status, position := input.position }
        else t) = db.tasks.map (sameMoveF ex input) := by
      rw [List.map_map]
      refine List.map_congr_left ?_
      intro t htm
      exact sameMoveF_decomp_lt hp (htid t htm)
    rw [h12, hf2, hex2]
  · rw [if_neg (by omega), if_neg (by omega)]
    have h12 : db.tasks.map (fun t =>
        if t.id = input.id then
          { t with status := input.status, position := input.position }
        else t) = db.tasks.map (sameMoveF ex input) := by
      refine List.map_congr_left ?_
      intro t htm
      exact sameMoveF_decomp_eq hp.symm (htid t htm)
    rw [h12, hf2, hex2]
  · rw [if_neg (by omega), if_pos hp]
    have h12 : (db.tasks.map (fun t =>
        if t.project_id = ex.project_id ∧ t.status = input.status ∧
            ex.position < t.position ∧ t.position ≤ input.position then
          { t with position := t.position - 1 }
        else t)).map (fun t =>
        if t.id = input.id then
          { t with status := input.status, position := input.position }
        else t) = db.tasks.map (sameMoveF ex input) := by
      rw [List.map_map]
      refine List.map_congr_left ?_
      intro t htm
      exact sameMoveF_decomp_gt hp (htid t htm)
    rw [h12, hf2, hex2]

/-- Cross-status `moveTask` on a found row equals the spec's per-row map
`crossMoveF` applied across the table. -/
theorem moveTask_cross_eq {db : DB} {input : MoveTaskInput} {ex : Task}
    (hids : NodupIds db) (hfind : getTaskById db input.id = some ex)
    (hs : ¬ ex.status = input.status) :
    moveTask db input = .ok
      ({ ex with status := input.status, position := input.position },
        { db with tasks := db.tasks.map (crossMoveF ex input) }) := by
  have hexmem := getTaskById_mem hfind
  have hexid := getTaskById_id hfind
  have htid : ∀ t ∈ db.tasks, t.id = input.id → t = ex := fun t htm hti =>
    eq_of_same_id hids htm hexmem (hti.trans hexid.symm)
  have hfind' : db.tasks.find? (fun t => t.id == input.id) = some ex := hfind
  have hf2 : (db.tasks.map (crossMoveF ex input)).find? (fun t => t.id == input.id) =
      some (crossMoveF ex input ex) := by
    rw [find?_map_of_id db.tasks _ input.id (crossMoveF_id ex input), hfind']
    rfl
  have hex2 : crossMoveF ex input ex =
      { ex with status := input.status, position := input.position } := by
    unfold crossMoveF
    rw [if_pos hexid]
  simp only [moveTask, hfind]
  rw [if_neg hs]
  have h12 : ((db.tasks.map (fun t =>
      if t.project_id = ex.project_id ∧ t.status = input.status ∧
          input.position ≤ t.position then
        { t with position := t.position + 1 }
      else t)).map (fun t =>
      if t.project_id = ex.project_id ∧ t.status = ex.status ∧
          ex.position < t.position then
        { t with position := t.position - 1 }
      else t)).map (fun t =>
      if t.id = input.id then
        { t with status := input.status, position := input.position }
      else t) = db.tasks.map (crossMoveF ex input) := by
    rw [List.map_map, List.map_map]
    refine List.map_congr_left ?_
    intro t htm
    exact crossMoveF_decomp hs (htid t htm)
  rw [h12, hf2, hex2]

/-! ## Column characterizations -/

theorem mem_column {db : DB} {p : Nat} {s : TaskStatus} {t : Task} :
    t ∈ column db p s ↔ t ∈ db.tasks ∧ t.project_id = p ∧ t.status = s := by
  simp [column, List.mem_filter]

theorem tasks_nodup {db : DB} (h : NodupIds db) : db.tasks.Nodup :=
  List.Nodup.of_map _ h

theorem column_nodup {db : DB} (h : NodupIds db) (p : Nat) (s : TaskStatus) :
    (column db p s).Nodup := (tasks_nodup h).filter _

theorem posns_map {c : List Task} {f : Task → Task} {g : Int → Int}
    (h : ∀ t ∈ c, (f t).position = g t.position) :
    posns (c.map f) = (posns c).map g := by
  unfold posns
  rw [List.map_map, List.map_map]
  exact List.map_congr_left h

theorem sameMoveF_pos_moved {ex : Task} {input : MoveTaskInput} {t : Task}
    (hti : t.id = input.id) : (sameMoveF ex input t).position = input.position := by
  unfold sameMoveF
  rw [if_pos hti]

theorem sameMoveF_position_in_col {ex : Task} {input : MoveTaskInput} {t : Task}
    (hti : ¬ t.id = input.id) (hpj : t.project_id = ex.project_id)
    (hst : t.status = input.status) :
    (sameMoveF ex input t).position =
      sameShiftI input.position ex.position t.position := by
  unfold sameMoveF sameShiftI
  rw [if_neg hti]
  by_cases h1 : input.position ≤ t.position ∧ t.position < ex.position
  · rw [if_pos ⟨hpj, hst, h1.1, h1.2⟩, if_pos h1]
  · rw [if_neg (fun hc => h1 ⟨hc.2.2.1, hc.2.2.2⟩), if_neg h1]
    by_cases h2 : ex.position < t.position ∧ t.position ≤ input.position
    · rw [if_pos ⟨hpj, hst, h2.1, h2.2⟩, if_pos h2]
    · rw [if_neg (fun hc => h2 ⟨hc.2.2.1, hc.2.2.2⟩), if_neg h2]

theorem crossMoveF_pos_moved {ex : Task} {input : MoveTaskInput} {t : Task}
    (hti : t.id = input.id) : (crossMoveF ex input t).position = input.position := by
  unfold crossMoveF
  rw [if_pos hti]

theorem crossMoveF_position_dest {ex : Task} {input : MoveTaskInput} {t : Task}
    (hs : ¬ ex.status = input.status) (hti : ¬ t.id = input.id)
    (hpj : t.project_id = ex.project_id) (hst : t.status = input.status) :
    (crossMoveF ex input t).position = tailShiftI input.position t.position := by
  unfold crossMoveF tailShiftI
  rw [if_neg hti]
  by_cases h1 : input.position ≤ t.position
  · rw [if_pos ⟨hpj, hst, h1⟩, if_pos h1]
  · rw [if_neg (fun hc => h1 hc.2.2), if_neg h1]
    have hc3 : ¬(t.project_id = ex.project_id ∧ t.status = ex.status ∧
        ex.position < t.position) := by
      rintro ⟨-, h2, -⟩
      exact hs (by rw [← h2, hst])
    rw [if_neg hc3]

theorem crossMoveF_position_src {ex : Task} {input : MoveTaskInput} {t : Task}
    (hs : ¬ ex.status = input.status) (hti : ¬ t.id = input.id)
    (hpj : t.project_id = ex.project_id) (hst : t.status = ex.status) :
    (crossMoveF ex input t).position = aboveShiftI ex.position t.position := by
  unfold crossMoveF aboveShiftI
  have hc2 : ¬(t.project_id = ex.project_id ∧ t.status = input.status ∧
      input.position ≤ t.position) := by
    rintro ⟨-, h2, -⟩
    exact hs (by rw [← hst, h2])
  rw [if_neg hti, if_neg hc2]
  by_cases h1 : ex.position < t.position
  · rw [if_pos ⟨hpj, hst, h1⟩, if_pos h1]
  · rw [if_neg (fun hc => h1 hc.2.2), if_neg h1]

theorem deleteShiftF_position_in_col {ex : Task} {t : Task}
    (hpj : t.project_id = ex.project_id) (hst : t.status = ex.status) :
    (deleteShiftF ex t).position = aboveShiftI ex.position t.position := by
  unfold deleteShiftF aboveShiftI
  by_cases h1 : ex.position < t.position
  · rw [if_pos ⟨hpj, hst, h1⟩, if_pos h1]
  · rw [if_neg (fun hc => h1 hc.2.2), if_neg h1]

/-- A same-status move commutes with every column filter: the moved row's
project and status do not change. -/
theorem column_map_sameMoveF {db : DB} {input : MoveTaskInput} {ex : Task}
    (hids : NodupIds db) (hfind : getTaskById db input.id = some ex)
    (hs : ex.status = input.status) (p : Nat) (s : TaskStatus) :
    column { db with tasks := db.tasks.map (sameMoveF ex input) } p s =
      (column db p s).map (sameMoveF ex input) := by
  refine filter_map_comm _ _ _ ?_
  intro t htm
  have h1 : (sameMoveF ex input t).project_id = t.project_id := by
    unfold sameMoveF
    split_ifs <;> rfl
  have h2 : (sameMoveF ex input t).status = t.status := by
    unfold sameMoveF
    split_ifs with h h' h''
    · have he := eq_of_same_id hids htm (getTaskById_mem hfind)
        (h.trans (getTaskById_id hfind).symm)
      rw [he]
      exact hs.symm
    · rfl
    · rfl
    · rfl
  rw [h1, h2]

/-- A same-status move leaves every other column untouched. -/
theorem column_sameMoveF_other {db : DB} {input : MoveTaskInput} {ex : Task}
    (hids : NodupIds db) (hfind : getTaskById db input.id = some ex)
    (hs : ex.status = input.status) (p : Nat) (s : TaskStatus)
    (hne : ¬(p = ex.project_id ∧ s = input.status)) :
    column { db with tasks := db.tasks.map (sameMoveF ex input) } p s =
      column db p s := by
  rw [column_map_sameMoveF hids hfind hs]
  refine map_eq_self _ _ ?_
  intro t htc
  obtain ⟨htm, htp, hts⟩ := mem_column.mp htc
  unfold sameMoveF
  have hni : ¬ t.id = input.id := by
    intro hti
    have he := eq_of_same_id hids htm (getTaskById_mem hfind)
      (hti.trans (getTaskById_id hfind).symm)
    refine hne ⟨?_, ?_⟩
    · rw [← htp, he]
    · rw [← hts, he, hs]
  have hcond : ¬(t.project_id = ex.project_id ∧ t.status = input.status ∧
      input.position ≤ t.position ∧ t.position < ex.position) := by
    rintro ⟨h1, h2, -⟩
    exact hne ⟨by rw [← htp, h1], by rw [← hts, h2]⟩
  have hcond2 : ¬(t.project_id = ex.project_id ∧ t.status = input.status ∧
      ex.position < t.position ∧ t.position ≤ input.position) := by
    rintro ⟨h1, h2, -⟩
    exact hne ⟨by rw [← htp, h1], by rw [← hts, h2]⟩
  rw [if_neg hni, if_neg hcond, if_neg hcond2]

theorem crossMoveF_project (ex : Task) (input : MoveTaskInput) (t : Task) :
    (crossMoveF ex input t).project_id = t.project_id := by
  unfold crossMoveF
  split_ifs <;> rfl

theorem crossMoveF_status_of_ne {ex : Task} {input : MoveTaskInput} {t : Task}
    (hti : ¬ t.id = input.id) : (crossMoveF ex input t).status = t.status := by
  unfold crossMoveF
  rw [if_neg hti]
  split_ifs <;> rfl

theorem crossMoveF_moved {ex : Task} {input : MoveTaskInput}
    (hexid : ex.id = input.id) :
    crossMoveF ex input ex =
      { ex with status := input.status, position := input.position } := by
  unfold crossMoveF
  rw [if_pos hexid]

theorem deleteShiftF_project (ex t : Task) :
    (deleteShiftF ex t).project_id = t.project_id := by
  unfold deleteShiftF
  split_ifs <;> rfl

theorem deleteShiftF_status (ex t : Task) :
    (deleteShiftF ex t).status = t.status := by
  unfold deleteShiftF
  split_ifs <;> rfl

theorem mem_tasks_of_mem_erase {db : DB} {ex t : Task}
    (ht : t ∈ db.tasks.erase ex) : t ∈ db.tasks :=
  List.mem_of_mem_erase ht

theorem ne_of_mem_erase_tasks {db : DB} (hids : NodupIds db) {ex t : Task}
    (ht : t ∈ db.tasks.erase ex) : t ≠ ex :=
  ((tasks_nodup hids).mem_erase_iff.mp ht).1

theorem id_ne_of_mem_erase {db : DB} {input : MoveTaskInput} {ex : Task}
    (hids : NodupIds db) (hfind : getTaskById db input.id = some ex) {t : Task}
    (ht : t ∈ db.tasks.erase ex) : ¬ t.id = input.id := by
  intro hti
  have he := eq_of_same_id hids (mem_tasks_of_mem_erase ht)
    (getTaskById_mem hfind) (hti.trans (getTaskById_id hfind).symm)
  exact ne_of_mem_erase_tasks hids ht he

/-- Cross-status move, destination column: the moved row arrives, old rows
are mapped across. -/
theorem column_crossMoveF_dest {db : DB} {input : MoveTaskInput} {ex : Task}
    (hids : NodupIds db) (hfind : getTaskById db input.id = some ex)
    (hs : ¬ ex.status = input.status) :
    (column { db with tasks := db.tasks.map (crossMoveF ex input) }
        ex.project_id input.status).Perm
      ({ ex with status := input.status, position := input.position } ::
        (column db ex.project_id input.status).map (crossMoveF ex input)) := by
  have hexmem := getTaskById_mem hfind
  have hexid := getTaskById_id hfind
  have hperm : db.tasks.Perm (ex :: db.tasks.erase ex) := List.perm_cons_erase hexmem
  have hpredf : ∀ t ∈ db.tasks.erase ex,
      (fun u => decide (u.project_id = ex.project_id ∧ u.status = input.status))
        (crossMoveF ex input t) =
      (fun u => decide (u.project_id = ex.project_id ∧ u.status = input.status)) t := by
    intro t ht
    have hti := id_ne_of_mem_erase hids hfind ht
    simp only [crossMoveF_project, crossMoveF_status_of_ne hti]
  have h1 : (column { db with tasks := db.tasks.map (crossMoveF ex input) }
      ex.project_id input.status).Perm
      ((crossMoveF ex input ex :: (db.tasks.erase ex).map (crossMoveF ex input)).filter
        (fun u => decide (u.project_id = ex.project_id ∧ u.status = input.status))) := by
    refine List.Perm.filter _ ?_
    simpa using hperm.map (crossMoveF ex input)
  have h2 : (crossMoveF ex input ex :: (db.tasks.erase ex).map (crossMoveF ex input)).filter
      (fun u => decide (u.project_id = ex.project_id ∧ u.status = input.status)) =
      crossMoveF ex input ex :: ((db.tasks.erase ex).filter
        (fun u => decide (u.project_id = ex.project_id ∧ u.status = input.status))).map
        (crossMoveF ex input) := by
    rw [List.filter_cons]
    rw [crossMoveF_moved hexid]
    simp only [decide_eq_true_eq, true_and]
    rw [if_pos trivial, filter_map_comm _ _ _ hpredf]
  have h3 : ((db.tasks.erase ex).filter
      (fun u => decide (u.project_id = ex.project_id ∧ u.status = input.status))).Perm
      (column db ex.project_id input.status) := by
    have h4 := hperm.filter
      (fun u => decide (u.project_id = ex.project_id ∧ u.status = input.status))
    rw [List.filter_cons] at h4
    rw [if_neg (by simp only [decide_eq_true_eq]; rintro ⟨-, h⟩; exact hs h)] at h4
    exact h4.symm
  refine h1.trans ?_
  rw [h2, crossMoveF_moved hexid]
  exact List.Perm.cons _ (h3.map (crossMoveF ex input))

/-- Cross-status move, source column: the moved row leaves, the rest are
mapped across. -/
theorem column_crossMoveF_src {db : DB} {input : MoveTaskInput} {ex : Task}
    (hids : NodupIds db) (hfind : getTaskById db input.id = some ex)
    (hs : ¬ ex.status = input.status) :
    (column { db with tasks := db.tasks.map (crossMoveF ex input) }
        ex.project_id ex.status).Perm
      (((column db ex.project_id ex.status).erase ex).map (crossMoveF ex input)) := by
  have hexmem := getTaskById_mem hfind
  have hexid := getTaskById_id hfind
  have hperm : db.tasks.Perm (ex :: db.tasks.erase ex) := List.perm_cons_erase hexmem
  have hpredf : ∀ t ∈ db.tasks.erase ex,
      (fun u => decide (u.project_id = ex.project_id ∧ u.status = ex.status))
        (crossMoveF ex input t) =
      (fun u => decide (u.project_id = ex.project_id ∧ u.status = ex.status)) t := by
    intro t ht
    have hti := id_ne_of_mem_erase hids hfind ht
    simp only [crossMoveF_project, crossMoveF_status_of_ne hti]
  have h1 : (column { db with tasks := db.tasks.map (crossMoveF ex input) }
      ex.project_id ex.status).Perm
      ((crossMoveF ex input ex :: (db.tasks.erase ex).map (crossMoveF ex input)).filter
        (fun u => decide (u.project_id = ex.project_id ∧ u.status = ex.status))) := by
    refine List.Perm.filter _ ?_
    simpa using hperm.map (crossMoveF ex input)
  have h2 : (crossMoveF ex input ex :: (db.tasks.erase ex).map (crossMoveF ex input)).filter
      (fun u => decide (u.project_id = ex.project_id ∧ u.status = ex.status)) =
      ((db.tasks.erase ex).filter
        (fun u => decide (u.project_id = ex.project_id ∧ u.status = ex.status))).map
        (crossMoveF ex input) := by
    rw [List.filter_cons, crossMoveF_moved hexid]
    rw [if_neg (by simp only [decide_eq_true_eq]; rintro ⟨-, h⟩; exact hs h.symm)]
    rw [filter_map_comm _ _ _ hpredf]
  have h3 : ((db.tasks.erase ex).filter
      (fun u => decide (u.project_id = ex.project_id ∧ u.status = ex.status))).Perm
      ((column db ex.project_id ex.status).erase ex) := by
    have h4 := hperm.filter
      (fun u => decide (u.project_id = ex.project_id ∧ u.status = ex.status))
    rw [List.filter_cons] at h4
    rw [if_pos (by simp)] at h4
    have h5 := h4.erase ex
    rw [List.erase_cons_head] at h5
    exact h5.symm
  refine h1.trans ?_
  rw [h2]
  exact h3.map (crossMoveF ex input)

/-- Cross-status move: any column other than source and destination is
untouched. -/
theorem column_crossMoveF_other {db : DB} {input : MoveTaskInput} {ex : Task}
    (hids : NodupIds db) (hfind : getTaskById db input.id = some ex)
    (p : Nat) (s : TaskStatus)
    (hne1 : ¬(p = ex.project_id ∧ s = input.status))
    (hne2 : ¬(p = ex.project_id ∧ s = ex.status)) :
    column { db with tasks := db.tasks.map (crossMoveF ex input) } p s =
      column db p s := by
  have hexmem := getTaskById_mem hfind
  have hexid := getTaskById_id hfind
  have hcom : column { db with tasks := db.tasks.map (crossMoveF ex input) } p s =
      (column db p s).map (crossMoveF ex input) := by
    refine filter_map_comm _ _ _ ?_
    intro t htm
    by_cases hti : t.id = input.id
    · have he := eq_of_same_id hids htm (getTaskById_mem hfind)
        (hti.trans (getTaskById_id hfind).symm)
      subst he
      rw [crossMoveF_moved (by rw [getTaskById_id hfind])]
      simp only [decide_eq_true_eq]
      congr 1
      refine propext ⟨?_, ?_⟩
      · rintro ⟨h1, h2⟩
        exact absurd ⟨h1.symm, h2.symm⟩ hne1
      · rintro ⟨h1, h2⟩
        exact absurd ⟨h1.symm, h2.symm⟩ hne2
    · simp only [crossMoveF_project, crossMoveF_status_of_ne hti]
  rw [hcom]
  refine map_eq_self _ _ ?_
  intro t htc
  obtain ⟨htm, htp, hts⟩ := mem_column.mp htc
  have hti : ¬ t.id = input.id := by
    intro hti
    have he := eq_of_same_id hids htm (getTaskById_mem hfind)
      (hti.trans (getTaskById_id hfind).symm)
    exact hne2 ⟨by rw [← htp, he], by rw [← hts, he]⟩
  unfold crossMoveF
  rw [if_neg hti,
    if_neg (by rintro ⟨h1, h2, -⟩; exact hne1 ⟨by rw [← htp, h1], by rw [← hts, h2]⟩),
    if_neg (by rintro ⟨h1, h2, -⟩; exact hne2 ⟨by rw [← htp, h1], by rw [← hts, h2]⟩)]

/-- Delete: the deleted row's column loses it and is compacted by the map. -/
theorem column_delete_target {db : DB} {i : Nat} {ex : Task}
    (hids : NodupIds db) (hfind : getTaskById db i = some ex) :
    (column { db with tasks := (db.tasks.erase ex).map (deleteShiftF ex) }
        ex.project_id ex.status).Perm
      (((column db ex.project_id ex.status).erase ex).map (deleteShiftF ex)) := by
  have hexmem := getTaskById_mem hfind
  have hperm : db.tasks.Perm (ex :: db.tasks.erase ex) := List.perm_cons_erase hexmem
  have h2 : column { db with tasks := (db.tasks.erase ex).map (deleteShiftF ex) }
      ex.project_id ex.status =
      ((db.tasks.erase ex).filter
        (fun u => decide (u.project_id = ex.project_id ∧ u.status = ex.status))).map
        (deleteShiftF ex) := by
    refine filter_map_comm _ _ _ ?_
    intro t ht
    simp only [deleteShiftF_project, deleteShiftF_status]
  have h3 : ((db.tasks.erase ex).filter
      (fun u => decide (u.project_id = ex.project_id ∧ u.status = ex.status))).Perm
      ((column db ex.project_id ex.status).erase ex) := by
    have h4 := hperm.filter
      (fun u => decide (u.project_id = ex.project_id ∧ u.status = ex.status))
    rw [List.filter_cons] at h4
    rw [if_pos (by simp)] at h4
    have h5 := h4.erase ex
    rw [List.erase_cons_head] at h5
    exact h5.symm
  rw [h2]
  exact h3.map (deleteShiftF ex)

/-- Delete: any other column is untouched. -/
theorem column_delete_other {db : DB} {i : Nat} {ex : Task}
    (hids : NodupIds db) (hfind : getTaskById db i = some ex)
    (p : Nat) (s : TaskStatus) (hne : ¬(p = ex.project_id ∧ s = ex.status)) :
    (column { db with tasks := (db.tasks.erase ex).map (deleteShiftF ex) } p s).Perm
      (column db p s) := by
  have hexmem := getTaskById_mem hfind
  have hperm : db.tasks.Perm (ex :: db.tasks.erase ex) := List.perm_cons_erase hexmem
  have h2 : column { db with tasks := (db.tasks.erase ex).map (deleteShiftF ex) } p s =
      ((db.tasks.erase ex).filter
        (fun u => decide (u.project_id = p ∧ u.status = s))).map (deleteShiftF ex) := by
    refine filter_map_comm _ _ _ ?_
    intro t ht
    simp only [deleteShiftF_project, deleteShiftF_status]
  have hmapid : ((db.tasks.erase ex).filter
      (fun u => decide (u.project_id = p ∧ u.status = s))).map (deleteShiftF ex) =
      (db.tasks.erase ex).filter (fun u => decide (u.project_id = p ∧ u.status = s)) := by
    refine map_eq_self _ _ ?_
    intro t htc
    have h5 := List.mem_filter.mp htc
    have h6 := of_decide_eq_true h5.2
    unfold deleteShiftF
    rw [if_neg (by rintro ⟨h7, h8, -⟩; exact hne ⟨by rw [← h6.1, h7], by rw [← h6.2, h8]⟩)]
  have h3 : ((db.tasks.erase ex).filter
      (fun u => decide (u.project_id = p ∧ u.status = s))).Perm (column db p s) := by
    have h4 := hperm.filter (fun u => decide (u.project_id = p ∧ u.status = s))
    rw [List.filter_cons] at h4
    rw [if_neg (by
      simp only [decide_eq_true_eq]
      rintro ⟨h7, h8⟩
      exact hne ⟨h7.symm, h8.symm⟩)] at h4
    exact h4.symm
  rw [h2, hmapid]
  exact h3

/-- Create: the new row's column gains it at the end; others are unchanged. -/
theorem column_of_append {db : DB} {tk : Task} {n : Nat} (p : Nat) (s : TaskStatus) :
    column { db with tasks := db.tasks ++ [tk], nextId := n } p s =
      column db p s ++ (if tk.project_id = p ∧ tk.status = s then [tk] else []) := by
  unfold column
  rw [List.filter_append]
  congr 1
  simp only [List.filter_cons, List.filter_nil]
  split_ifs with h h2 h3
  · rfl
  · exact absurd (of_decide_eq_true h) h2
  · exact absurd (decide_eq_true h3) (by simp [h])
  · rfl

/-- Same-status move, the moved row's column at the position level: before
the move the positions are the moved row's position consed on the rest, and
after it they are the target position consed on the shifted rest. -/
theorem posns_column_sameMoveF_target {db : DB} {input : MoveTaskInput} {ex : Task}
    (hids : NodupIds db) (hfind : getTaskById db input.id = some ex)
    (hs : ex.status = input.status) :
    (posns (column { db with tasks := db.tasks.map (sameMoveF ex input) }
        ex.project_id input.status)).Perm
      (input.position ::
        (posns ((column db ex.project_id input.status).erase ex)).map
          (sameShiftI input.position ex.position)) ∧
    (posns (column db ex.project_id input.status)).Perm
      (ex.position :: posns ((column db ex.project_id input.status).erase ex)) := by
  have hexmem := getTaskById_mem hfind
  have hexid := getTaskById_id hfind
  have hcolmem : ex ∈ column db ex.project_id input.status :=
    mem_column.mpr ⟨hexmem, rfl, hs⟩
  have hcolnd : (column db ex.project_id input.status).Nodup := column_nodup hids _ _
  have hcperm : (column db ex.project_id input.status).Perm
      (ex :: (column db ex.project_id input.status).erase ex) :=
    List.perm_cons_erase hcolmem
  constructor
  · rw [column_map_sameMoveF hids hfind hs]
    have h1 : ((column db ex.project_id input.status).map (sameMoveF ex input)).Perm
        (sameMoveF ex input ex ::
          ((column db ex.project_id input.status).erase ex).map (sameMoveF ex input)) := by
      simpa using hcperm.map (sameMoveF ex input)
    have h2 := h1.map (fun t => t.position)
    have h3 : posns (((column db ex.project_id input.status).erase ex).map
        (sameMoveF ex input)) =
        (posns ((column db ex.project_id input.status).erase ex)).map
          (sameShiftI input.position ex.position) := by
      refine posns_map ?_
      intro t ht
      obtain ⟨hne, htc⟩ := hcolnd.mem_erase_iff.mp ht
      obtain ⟨htm, htp, hts⟩ := mem_column.mp htc
      have hti : ¬ t.id = input.id := by
        intro hti
        exact hne (eq_of_same_id hids htm hexmem (hti.trans hexid.symm))
      exact sameMoveF_position_in_col hti htp hts
    have h4 : posns ((column db ex.project_id input.status).map (sameMoveF ex input)) =
        ((column db ex.project_id input.status).map (sameMoveF ex input)).map
          (fun t => t.position) := rfl
    rw [h4]
    refine h2.trans ?_
    simp only [List.map_cons]
    rw [sameMoveF_pos_moved hexid]
    have h5 : (((column db ex.project_id input.status).erase ex).map
        (sameMoveF ex input)).map (fun t => t.position) =
        posns (((column db ex.project_id input.status).erase ex).map
          (sameMoveF ex input)) := rfl
    rw [h5, h3]
  · unfold posns
    have h6 := hcperm.map (fun t => t.position)
    simpa using h6

theorem nodupIds_map {db : DB} {f : Task → Task} (hf : ∀ t, (f t).id = t.id)
    (hids : NodupIds db) : NodupIds { db with tasks := db.tasks.map f } := by
  unfold NodupIds at *
  have h1 : (db.tasks.map f).map (fun t => t.id) = db.tasks.map (fun t => t.id) := by
    rw [List.map_map]
    exact List.map_congr_left (fun t _ => hf t)
  simpa [h1] using hids

theorem nodupIds_erase_map {db : DB} {ex : Task} {f : Task → Task}
    (hf : ∀ t, (f t).id = t.id) (hids : NodupIds db) :
    NodupIds { db with tasks := (db.tasks.erase ex).map f } := by
  unfold NodupIds at *
  have h1 : ((db.tasks.erase ex).map f).map (fun t => t.id) =
      (db.tasks.erase ex).map (fun t => t.id) := by
    rw [List.map_map]
    exact List.map_congr_left (fun t _ => hf t)
  rw [show ({ db with tasks := (db.tasks.erase ex).map f } : DB).tasks =
    (db.tasks.erase ex).map f from rfl, h1]
  exact List.Nodup.sublist ((List.erase_sublist ex db.tasks).map _) hids

theorem createTask_err_project {db : DB} {input : CreateTaskInput}
    (h : ¬ input.project_id ∈ db.projects) :
    createTask db input = .error .projectNotFound := by
  unfold createTask
  rw [if_pos (by simpa using h)]

theorem createTask_err_creator {db : DB} {input : CreateTaskInput}
    (hp : input.project_id ∈ db.projects) (h : ¬ input.created_by ∈ db.users) :
    createTask db input = .error .creatorNotFound := by
  unfold createTask
  rw [if_neg (by simpa using hp), if_pos (by simpa using h)]

theorem createTask_err_assignee {db : DB} {input : CreateTaskInput}
    (hp : input.project_id ∈ db.projects) (hu : input.created_by ∈ db.users)
    (ht : idTruthy input.assignee_id = true) (h : ¬ input.assignee_id.getD 0 ∈ db.users) :
    createTask db input = .error .assigneeNotFound := by
  unfold createTask
  rw [if_neg (by simpa using hp), if_neg (by simpa using hu), if_pos ⟨ht, by simpa using h⟩]

theorem newCreated_project (db : DB) (input : CreateTaskInput) :
    (newCreated db input).project_id = input.project_id := rfl

theorem newCreated_status (db : DB) (input : CreateTaskInput) :
    (newCreated db input).status = input.status := rfl

theorem newCreated_id (db : DB) (input : CreateTaskInput) :
    (newCreated db input).id = db.nextId := rfl

theorem newCreated_position (db : DB) (input : CreateTaskInput) :
    (newCreated db input).position =
      (maxPos (column db input.project_id input.status)).getD (-1) + 1 := rfl

/-- Cross-status move, destination column at the position level. -/
theorem posns_column_crossMoveF_dest {db : DB} {input : MoveTaskInput} {ex : Task}
    (hids : NodupIds db) (hfind : getTaskById db input.id = some ex)
    (hs : ¬ ex.status = input.status) :
    (posns (column { db with tasks := db.tasks.map (crossMoveF ex input) }
        ex.project_id input.status)).Perm
      (input.position ::
        (posns (column db ex.project_id input.status)).map (tailShiftI input.position)) := by
  have hexmem := getTaskById_mem hfind
  have hexid := getTaskById_id hfind
  have hcp := column_crossMoveF_dest hids hfind hs
  have h1 := hcp.map (fun t => t.position)
  have h2 : posns ((column db ex.project_id input.status).map (crossMoveF ex input)) =
      (posns (column db ex.project_id input.status)).map (tailShiftI input.position) := by
    refine posns_map ?_
    intro t ht
    obtain ⟨htm, htp, hts⟩ := mem_column.mp ht
    have hti : ¬ t.id = input.id := by
      intro hti
      have he := eq_of_same_id hids htm hexmem (hti.trans hexid.symm)
      exact hs (by rw [← he, hts])
    exact crossMoveF_position_dest hs hti htp hts
  unfold posns at h1 h2 ⊢
  simp only [List.map_cons] at h1
  rw [h2] at h1
  exact h1

/-- Cross-status move, source column at the position level. -/
theorem posns_column_crossMoveF_src {db : DB} {input : MoveTaskInput} {ex : Task}
    (hids : NodupIds db) (hfind : getTaskById db input.id = some ex)
    (hs : ¬ ex.status = input.status) :
    (posns (column { db with tasks := db.tasks.map (crossMoveF ex input) }
        ex.project_id ex.status)).Perm
      ((posns ((column db ex.project_id ex.status).erase ex)).map
        (aboveShiftI ex.position)) ∧
    (posns (column db ex.project_id ex.status)).Perm
      (ex.position :: posns ((column db ex.project_id ex.status).erase ex)) := by
  have hexmem := getTaskById_mem hfind
  have hexid := getTaskById_id hfind
  have hcolmem : ex ∈ column db ex.project_id ex.status :=
    mem_column.mpr ⟨hexmem, rfl, rfl⟩
  have hcolnd : (column db ex.project_id ex.status).Nodup := column_nodup hids _ _
  constructor
  · have hcp := column_crossMoveF_src hids hfind hs
    have h1 := hcp.map (fun t => t.position)
    have h2 : posns (((column db ex.project_id ex.status).erase ex).map
        (crossMoveF ex input)) =
        (posns ((column db ex.project_id ex.status).erase ex)).map
          (aboveShiftI ex.position) := by
      refine posns_map ?_
      intro t ht
      obtain ⟨hne, htc⟩ := hcolnd.mem_erase_iff.mp ht
      obtain ⟨htm, htp, hts⟩ := mem_column.mp htc
      have hti : ¬ t.id = input.id := by
        intro hti
        exact hne (eq_of_same_id hids htm hexmem (hti.trans hexid.symm))
      exact crossMoveF_position_src hs hti htp hts
    unfold posns at h1 h2 ⊢
    rw [h2] at h1
    exact h1
  · have h6 := (List.perm_cons_erase hcolmem).map (fun t => t.position)
    unfold posns
    simpa using h6

/-- Delete, the deleted row's column at the position level. -/
theorem posns_column_delete_target {db : DB} {i : Nat} {ex : Task}
    (hids : NodupIds db) (hfind : getTaskById db i = some ex) :
    (posns (column { db with tasks := (db.tasks.erase ex).map (deleteShiftF ex) }
        ex.project_id ex.status)).Perm
      ((posns ((column db ex.project_id ex.status).erase ex)).map
        (aboveShiftI ex.position)) ∧
    (posns (column db ex.project_id ex.status)).Perm
      (ex.position :: posns ((column db ex.project_id ex.status).erase ex)) := by
  have hexmem := getTaskById_mem hfind
  have hcolmem : ex ∈ column db ex.project_id ex.status :=
    mem_column.mpr ⟨hexmem, rfl, rfl⟩
  have hcolnd : (column db ex.project_id ex.status).Nodup := column_nodup hids _ _
  constructor
  · have hcp := column_delete_target hids hfind
    have h1 := hcp.map (fun t => t.position)
    have h2 : posns (((column db ex.project_id ex.status).erase ex).map
        (deleteShiftF ex)) =
        (posns ((column db ex.project_id ex.status).erase ex)).map
          (aboveShiftI ex.position) := by
      refine posns_map ?_
      intro t ht
      obtain ⟨hne, htc⟩ := hcolnd.mem_erase_iff.mp ht
      obtain ⟨htm, htp, hts⟩ := mem_column.mp htc
      exact deleteShiftF_position_in_col htp hts
    unfold posns at h1 h2 ⊢
    rw [h2] at h1
    exact h1
  · have h6 := (List.perm_cons_erase hcolmem).map (fun t => t.position)
    unfold posns
    simpa using h6

/-! ## Invariant preservation -/

theorem inv_create (input : CreateTaskInput) {db : DB} (hinv : Inv db) :
    Inv (applyOp db (.create input)) := by
  obtain ⟨hids, hbound, hcol⟩ := hinv
  by_cases h1 : input.project_id ∈ db.projects
  swap
  · have he := createTask_err_project h1
    simp only [applyOp, he]
    exact ⟨hids, hbound, hcol⟩
  by_cases h2 : input.created_by ∈ db.users
  swap
  · have he := createTask_err_creator h1 h2
    simp only [applyOp, he]
    exact ⟨hids, hbound, hcol⟩
  by_cases h3 : idTruthy input.assignee_id = true ∧ ¬ input.assignee_id.getD 0 ∈ db.users
  · have he := createTask_err_assignee h1 h2 h3.1 h3.2
    simp only [applyOp, he]
    exact ⟨hids, hbound, hcol⟩
  · have hok := createTask_ok h1 h2 (fun ht => by
      by_contra hn
      exact h3 ⟨ht, hn⟩)
    simp only [applyOp, hok]
    refine ⟨?_, ?_, ?_⟩
    · unfold NodupIds
      show ((db.tasks ++ [newCreated db input]).map (fun t => t.id)).Nodup
      rw [List.map_append]
      rw [List.nodup_append]
      refine ⟨hids, by simp, ?_⟩
      intro a ha hax
      simp only [List.map_cons, List.map_nil, List.mem_singleton] at hax
      obtain ⟨u, hu, rfl⟩ := List.mem_map.mp ha
      have hb := hbound u hu
      rw [newCreated_id] at hax
      omega
    · intro t ht
      show t.id < db.nextId + 1
      rcases List.mem_append.mp ht with h | h
      · have := hbound t h
        omega
      · simp only [List.mem_singleton] at h
        subst h
        rw [newCreated_id]
        omega
    · intro p s
      rw [column_of_append p s]
      by_cases hc : (newCreated db input).project_id = p ∧ (newCreated db input).status = s
      · rw [if_pos hc]
        rw [newCreated_project, newCreated_status] at hc
        obtain ⟨hcp, hcs⟩ := hc
        have hp' : p = input.project_id := hcp.symm
        have hs' : s = input.status := hcs.symm
        subst hp' hs'
        have hd := (hcol input.project_id input.status).1
        have hn := (hcol input.project_id input.status).2
        have hpos : (newCreated db input).position =
            ((posns (column db input.project_id input.status)).length : Int) := by
          rw [newCreated_position, nextPos_of_dense hd]
          simp [posns]
        have happ : posns (column db input.project_id input.status ++ [newCreated db input]) =
            posns (column db input.project_id input.status) ++
              [(newCreated db input).position] := by
          simp [posns]
        rw [happ, hpos]
        exact ⟨dense_append hd, nodup_append_of_not_mem (not_mem_of_densePos_length hd) hn⟩
      · rw [if_neg hc]
        simpa using hcol p s

theorem inv_move (input : MoveTaskInput) {db : DB} (hinv : Inv db)
    (hb : moveInBounds db input = true) : Inv (applyOp db (.move input)) := by
  obtain ⟨hids, hbound, hcol⟩ := hinv
  cases hfind : getTaskById db input.id with
  | none =>
    have he : moveTask db input = .error .taskNotFound := by
      unfold moveTask
      rw [hfind]
    simp only [applyOp, he]
    exact ⟨hids, hbound, hcol⟩
  | some ex =>
    have hexmem := getTaskById_mem hfind
    have hexid := getTaskById_id hfind
    by_cases hs : ex.status = input.status
    · have hmv := moveTask_same_eq hids hfind hs
      simp only [applyOp, hmv]
      have hbnd : 0 ≤ input.position ∧
          input.position < ((column db ex.project_id ex.status).length : Int) := by
        have hb2 : (if ex.status = input.status then
            decide (0 ≤ input.position ∧
              input.position < ((column db ex.project_id ex.status).length : Int))
          else
            decide (0 ≤ input.position ∧
              input.position ≤ ((column db ex.project_id input.status).length : Int))) =
            true := by
          unfold moveInBounds at hb
          rw [hfind] at hb
          exact hb
        rw [if_pos hs] at hb2
        exact of_decide_eq_true hb2
      rw [hs] at hbnd
      refine ⟨nodupIds_map (sameMoveF_id ex input) hids, ?_, ?_⟩
      · intro t ht
        obtain ⟨u, hu, rfl⟩ := List.mem_map.mp ht
        show (sameMoveF ex input u).id < db.nextId
        rw [sameMoveF_id]
        exact hbound u hu
      · intro p s
        by_cases hc : p = ex.project_id ∧ s = input.status
        · obtain ⟨rfl, rfl⟩ := hc
          obtain ⟨hp1, hp2⟩ := posns_column_sameMoveF_target hids hfind hs
          have hd := (hcol ex.project_id input.status).1
          have hn := (hcol ex.project_id input.status).2
          have hd2 := densePos_perm hp2 hd
          have hn2 := hp2.nodup hn
          have hlen : ((ex.position ::
              posns ((column db ex.project_id input.status).erase ex)).length : Int) =
              ((column db ex.project_id input.status).length : Int) := by
            rw [← hp2.length_eq]
            simp [posns]
          constructor
          · exact densePos_perm hp1.symm
              (dense_same_shift hd2 hn2 hbnd.1 (by rw [hlen]; exact hbnd.2))
          · exact (hp1.symm).nodup
              (nodup_same_shift (List.nodup_cons.mp hn2).1 (List.nodup_cons.mp hn2).2)
        · rw [column_sameMoveF_other hids hfind hs p s hc]
          exact hcol p s
    · have hmv := moveTask_cross_eq hids hfind hs
      simp only [applyOp, hmv]
      have hbnd : 0 ≤ input.position ∧
          input.position ≤ ((column db ex.project_id input.status).length : Int) := by
        have hb2 : (if ex.status = input.status then
            decide (0 ≤ input.position ∧
              input.position < ((column db ex.project_id ex.status).length : Int))
          else
            decide (0 ≤ input.position ∧
              input.position ≤ ((column db ex.project_id input.status).length : Int))) =
            true := by
          unfold moveInBounds at hb
          rw [hfind] at hb
          exact hb
        rw [if_neg hs] at hb2
        exact of_decide_eq_true hb2
      refine ⟨nodupIds_map (crossMoveF_id ex input) hids, ?_, ?_⟩
      · intro t ht
        obtain ⟨u, hu, rfl⟩ := List.mem_map.mp ht
        show (crossMoveF ex input u).id < db.nextId
        rw [crossMoveF_id]
        exact hbound u hu
      · intro p s
        by_cases hc1 : p = ex.project_id ∧ s = input.status
        · obtain ⟨rfl, rfl⟩ := hc1
          have hp1 := posns_column_crossMoveF_dest hids hfind hs
          have hd := (hcol ex.project_id input.status).1
          have hn := (hcol ex.project_id input.status).2
          have hlen : ((posns (column db ex.project_id input.status)).length : Int) =
              ((column db ex.project_id input.status).length : Int) := by
            simp [posns]
          constructor
          · exact densePos_perm hp1.symm
              (dense_tail_shift hd hbnd.1 (by rw [hlen]; exact hbnd.2))
          · exact (hp1.symm).nodup (nodup_tail_shift hn)
        · by_cases hc2 : p = ex.project_id ∧ s = ex.status
          · obtain ⟨rfl, rfl⟩ := hc2
            obtain ⟨hp1, hp2⟩ := posns_column_crossMoveF_src hids hfind hs
            have hd := (hcol ex.project_id ex.status).1
            have hn := (hcol ex.project_id ex.status).2
            have hd2 := densePos_perm hp2 hd
            have hn2 := hp2.nodup hn
            constructor
            · exact densePos_perm hp1.symm (dense_above_shift hd2 hn2)
            · exact (hp1.symm).nodup
                (nodup_above_shift (List.nodup_cons.mp hn2).1 (List.nodup_cons.mp hn2).2)
          · rw [column_crossMoveF_other hids hfind p s hc1 hc2]
            exact hcol p s

theorem inv_del (i : Nat) {db : DB} (hinv : Inv db) : Inv (applyOp db (.del i)) := by
  obtain ⟨hids, hbound, hcol⟩ := hinv
  cases hfind : getTaskById db i with
  | none =>
    have he : deleteTask db i = (false, db) := by
      unfold deleteTask
      rw [hfind]
    simp only [applyOp, he]
    exact ⟨hids, hbound, hcol⟩
  | some ex =>
    have hdel := deleteTask_eq hids hfind
    simp only [applyOp, hdel]
    refine ⟨nodupIds_erase_map (deleteShiftF_id ex) hids, ?_, ?_⟩
    · intro t ht
      obtain ⟨u, hu, rfl⟩ := List.mem_map.mp ht
      show (deleteShiftF ex u).id < db.nextId
      rw [deleteShiftF_id]
      exact hbound u (mem_tasks_of_mem_erase hu)
    · intro p s
      by_cases hc : p = ex.project_id ∧ s = ex.status
      · obtain ⟨rfl, rfl⟩ := hc
        obtain ⟨hp1, hp2⟩ := posns_column_delete_target hids hfind
        have hd := (hcol ex.project_id ex.status).1
        have hn := (hcol ex.project_id ex.status).2
        have hd2 := densePos_perm hp2 hd
        have hn2 := hp2.nodup hn
        constructor
        · exact densePos_perm hp1.symm (dense_above_shift hd2 hn2)
        · exact (hp1.symm).nodup
            (nodup_above_shift (List.nodup_cons.mp hn2).1 (List.nodup_cons.mp hn2).2)
      · have hcp := (column_delete_other hids hfind p s hc).map (fun t => t.position)
        have hcp2 : (posns (column
            { db with tasks := (db.tasks.erase ex).map (deleteShiftF ex) } p s)).Perm
            (posns (column db p s)) := hcp
        exact ⟨densePos_perm hcp2.symm (hcol p s).1, hcp2.symm.nodup (hcol p s).2⟩

theorem inv_run {db : DB} (hinv : Inv db) {ops : List Op}
    (hb : boundedRun db ops = true) : Inv (run db ops) := by
  induction ops generalizing db with
  | nil => exact hinv
  | cons op rest ih =>
    unfold boundedRun at hb
    rw [Bool.and_eq_true] at hb
    show Inv (run (applyOp db op) rest)
    refine ih ?_ hb.2
    cases op with
    | create input => exact inv_create input hinv
    | move input => exact inv_move input hinv hb.1
    | del i => exact inv_del i hinv

theorem inv_init (projects users : List Nat) (n : Nat) :
    Inv { projects := projects, users := users, tasks := [], nextId := n } := by
  refine ⟨?_, ?_, ?_⟩
  · unfold NodupIds
    simp
  · intro t ht
    simp only [List.mem_nil_iff] at ht
  · intro p s
    refine ⟨⟨?_, ?_⟩, ?_⟩
    · intro i hi
      simp [column, posns] at hi
    · intro m hm
      simp [column, posns] at hm
    · simp [column, posns]

theorem densePos_range (k : Nat) :
    DensePos ((List.range k).map Int.ofNat) := by
  constructor
  · intro i hi
    obtain ⟨n, hn, rfl⟩ := List.mem_map.mp hi
    simp only [List.length_map, List.length_range, Int.ofNat_eq_natCast]
    rw [List.mem_range] at hn
    omega
  · intro n hn
    simp only [List.length_map, List.length_range] at hn
    exact List.mem_map.mpr ⟨n, List.mem_range.mpr hn, rfl⟩

theorem createTask_ok_inv {db : DB} {input : CreateTaskInput} {tk : Task} {db' : DB}
    (h : createTask db input = .ok (tk, db')) :
    tk = newCreated db input ∧
    db' =
      { db with tasks := db.tasks ++ [newCreated db input], nextId := db.nextId + 1 } := by
  unfold createTask at h
  split_ifs at h
  all_goals first
  | (simp only [Except.ok.injEq, Prod.mk.injEq] at h
     exact ⟨h.1.symm, h.2.symm⟩)
  | simp at h

/-- Appending a run of creates to a column holding positions `0..k-1` in
order extends it to `0..k+N-1` in creation order. -/
theorem run_creates_range {p : Nat} {s : TaskStatus} :
    ∀ (inputs : List CreateTaskInput) (db : DB) (k : Nat),
    (∀ i ∈ inputs, i.project_id = p ∧ i.status = s ∧ p ∈ db.projects ∧
      i.created_by ∈ db.users ∧
      (idTruthy i.assignee_id = true → i.assignee_id.getD 0 ∈ db.users)) →
    posns (column db p s) = (List.range k).map Int.ofNat →
    posns (column (run db (inputs.map Op.create)) p s) =
      (List.range (k + inputs.length)).map Int.ofNat := by
  intro inputs
  induction inputs with
  | nil =>
    intro db k h hcol
    simpa using hcol
  | cons i rest ih =>
    intro db k h hcol
    obtain ⟨hip, his, hp, hu, ha⟩ := h i (List.mem_cons_self i rest)
    have hok := @createTask_ok db i (by rw [hip]; exact hp) hu ha
    show posns (column (run (applyOp db (.create i)) (rest.map Op.create)) p s) = _
    have happ : applyOp db (.create i) =
        { db with tasks := db.tasks ++ [newCreated db i], nextId := db.nextId + 1 } := by
      simp only [applyOp, hok]
    rw [happ]
    have hlenk : (column db p s).length = k := by
      have h9 := congrArg List.length hcol
      simpa [posns] using h9
    have hpos : (newCreated db i).position = (k : Int) := by
      rw [newCreated_position, hip, his]
      have hd : DensePos (posns (column db p s)) := by
        rw [hcol]
        exact densePos_range k
      rw [nextPos_of_dense hd, hlenk]
    have hcol' : posns (column
        { db with tasks := db.tasks ++ [newCreated db i], nextId := db.nextId + 1 }
        p s) = (List.range (k + 1)).map Int.ofNat := by
      rw [column_of_append p s,
        if_pos ⟨by rw [newCreated_project, hip], by rw [newCreated_status, his]⟩]
      have h8 : posns (column db p s ++ [newCreated db i]) =
          posns (column db p s) ++ [(newCreated db i).position] := by
        simp [posns]
      rw [h8, hpos, hcol, List.range_succ]
      simp
    have hstep := ih
      { db with tasks := db.tasks ++ [newCreated db i], nextId := db.nextId + 1 }
      (k + 1) (fun j hj => h j (List.mem_cons_of_mem i hj)) hcol'
    rw [hstep]
    have h7 : k + 1 + rest.length = k + (i :: rest).length := by
      simp only [List.length_cons]
      omega
    rw [h7]

/-! ## The claims -/

/-- C1 counterexample: starting from the empty task table, `createTask` then
`moveTask` of the lone `todo` task to position 5 leaves its `(project 1,
todo)` column with position set `{5}`, not `{0}` — the density invariant as
claimed is false for this call sequence (the source never bounds-checks the
target position; spec §9 flags exactly this). -/
theorem C1_counterexample :
    ¬ ∀ (p : Nat) (s : TaskStatus),
      PosSetIsRange (column (run exEmptyDB exGapOps) p s) := by
  intro h
  exact absurd
    ((h 1 TaskStatus.todo 5).mp ⟨{ baseTask with position := 5 }, by decide, by decide⟩)
    (by decide)

/-- C1 (amended): for every project P and status S, starting from the empty
task table, after any sequence of createTask, moveTask and deleteTask calls
in which every moveTask that finds its task keeps the target position within
the destination column's bounds (`0 ≤ p < k` same-status, `0 ≤ p ≤ k`
cross-status), the set of position values of the tasks in (P,S) is exactly
{0, 1, ..., k-1}, where k is the number of tasks in (P,S). -/
theorem C1_density_invariant_bounded (projects users : List Nat) (n : Nat)
    (ops : List Op)
    (hb : boundedRun
      { projects := projects, users := users, tasks := [], nextId := n }
      ops = true) (p : Nat) (s : TaskStatus) :
    PosSetIsRange (column
      (run { projects := projects, users := users, tasks := [], nextId := n } ops)
      p s) := by
  have hinv := inv_run (inv_init projects users n) hb
  exact (densePos_iff_posSetIsRange _).mp (hinv.2.2 p s).1

/-- C1 witness: a concrete bounded run — two creates, an in-bounds move, a
delete — ends with a dense `(1, todo)` column. -/
theorem C1_density_invariant_bounded_witness :
    boundedRun { projects := [1], users := [1], tasks := [], nextId := 1 }
      [Op.create baseCreate, Op.create baseCreate,
        Op.move ⟨1, TaskStatus.todo, 1⟩, Op.del 2] = true ∧
    PosSetIsRange (column
      (run { projects := [1], users := [1], tasks := [], nextId := 1 }
        [Op.create baseCreate, Op.create baseCreate,
          Op.move ⟨1, TaskStatus.todo, 1⟩, Op.del 2]) 1 TaskStatus.todo) :=
  ⟨by decide, C1_density_invariant_bounded [1] [1] 1
    [Op.create baseCreate, Op.create baseCreate,
      Op.move ⟨1, TaskStatus.todo, 1⟩, Op.del 2] (by decide) 1 TaskStatus.todo⟩

/-- C4: a successful `createTask` gives the new task position
`1 + MAX(position)` of its `(project_id, status)` column, or 0 when the
column is empty; and creating N tasks in sequence into an empty column
yields positions `0, 1, ..., N-1` in creation order. -/
theorem C4_createTask_append_position :
    (∀ (db : DB) (input : CreateTaskInput) (tk : Task) (db' : DB),
      createTask db input = .ok (tk, db') →
      tk.position = (match maxPos (column db input.project_id input.status) with
        | some m => m + 1
        | none => 0)) ∧
    (∀ (db : DB) (inputs : List CreateTaskInput) (p : Nat) (s : TaskStatus),
      (∀ i ∈ inputs, i.project_id = p ∧ i.status = s ∧ p ∈ db.projects ∧
        i.created_by ∈ db.users ∧
        (idTruthy i.assignee_id = true → i.assignee_id.getD 0 ∈ db.users)) →
      column db p s = [] →
      posns (column (run db (inputs.map Op.create)) p s) =
        (List.range inputs.length).map Int.ofNat) := by
  constructor
  · intro db input tk db' h
    obtain ⟨rfl, -⟩ := createTask_ok_inv h
    rw [newCreated_position]
    cases hm : maxPos (column db input.project_id input.status) with
    | none => simp
    | some m => simp
  · intro db inputs p s h hempty
    have h0 := run_creates_range inputs db 0 h (by rw [hempty]; rfl)
    simpa using h0

/-- C4 witness: in the empty store the first task gets position 0, and three
creates into the empty `(1, todo)` column give positions `[0, 1, 2]`. -/
theorem C4_createTask_append_position_witness :
    (newCreated exEmptyDB baseCreate).position =
      (match maxPos (column exEmptyDB baseCreate.project_id baseCreate.status) with
        | some m => m + 1
        | none => 0) ∧
    posns (column (run exEmptyDB ([baseCreate, baseCreate, baseCreate].map Op.create))
        1 TaskStatus.todo) =
      (List.range ([baseCreate, baseCreate, baseCreate] :
        List CreateTaskInput).length).map Int.ofNat :=
  ⟨C4_createTask_append_position.1 exEmptyDB baseCreate
      (newCreated exEmptyDB baseCreate)
      { exEmptyDB with
          tasks := exEmptyDB.tasks ++ [newCreated exEmptyDB baseCreate], nextId := 2 }
      (createTask_ok (by decide) (by decide) (by decide)),
    C4_createTask_append_position.2 exEmptyDB [baseCreate, baseCreate, baseCreate]
      1 TaskStatus.todo (by decide) (by decide)⟩

/-- C8 counterexample: in a store whose `(1, todo)` column holds a single
task parked at position 5, a successful `createTask` stores position 6 —
`MAX(position)+1` — while the column count is 1, so "position = current
count of tasks in the column" is false in general. -/
theorem C8_counterexample :
    createTask exSparseDB baseCreate =
      .ok (newCreated exSparseDB baseCreate,
        { exSparseDB with
            tasks := exSparseDB.tasks ++ [newCreated exSparseDB baseCreate], nextId := 3 }) ∧
    (newCreated exSparseDB baseCreate).position = 6 ∧
    ((column exSparseDB baseCreate.project_id baseCreate.status).length : Int) = 1 ∧
    (newCreated exSparseDB baseCreate).position ≠
      ((column exSparseDB baseCreate.project_id baseCreate.status).length : Int) :=
  ⟨createTask_ok (by decide) (by decide) (by decide), by decide, by decide, by decide⟩

/-- C8 (amended): the new task's position equals the count of tasks already
in its `(project_id, status)` column whenever that column's positions are
dense (`{0..k-1}`) — in particular in every state the bounded operations can
reach; in general the code stores `1 + MAX(position)` (or 0), not the count. -/
theorem C8_position_eq_count_of_dense (db : DB) (input : CreateTaskInput)
    (tk : Task) (db' : DB) (h : createTask db input = .ok (tk, db'))
    (hd : DensePos (posns (column db input.project_id input.status))) :
    tk.position = ((column db input.project_id input.status).length : Int) := by
  obtain ⟨rfl, -⟩ := createTask_ok_inv h
  rw [newCreated_position, nextPos_of_dense hd]

/-- C8 witness: creating into the empty, hence dense, `(1, todo)` column of
the empty store yields position 0 = count. -/
theorem C8_position_eq_count_of_dense_witness :
    createTask exEmptyDB baseCreate =
      .ok (newCreated exEmptyDB baseCreate,
        { exEmptyDB with
            tasks := exEmptyDB.tasks ++ [newCreated exEmptyDB baseCreate], nextId := 2 }) ∧
    DensePos (posns (column exEmptyDB baseCreate.project_id baseCreate.status)) ∧
    (newCreated exEmptyDB baseCreate).position =
      ((column exEmptyDB baseCreate.project_id baseCreate.status).length : Int) :=
  ⟨createTask_ok (by decide) (by decide) (by decide), by decide,
    C8_position_eq_count_of_dense exEmptyDB baseCreate (newCreated exEmptyDB baseCreate)
      { exEmptyDB with
          tasks := exEmptyDB.tasks ++ [newCreated exEmptyDB baseCreate], nextId := 2 }
      (createTask_ok (by decide) (by decide) (by decide)) (by decide)⟩

/-- C2: for an existing task `t` and a same-status call `moveTask(t.id, s,
p)`: when `p < t.position` exactly the tasks of `(t.project_id, s)` with
position in `[p, t.position)` are incremented; when `p > t.position`
exactly those with position in `(t.position, p]` are decremented; when
`p = t.position` no other task's position changes; and in every case `t`
itself is set to `(s, p)` — the whole table equals the per-row map
`sameMoveF`, which states precisely these ranges. -/
theorem C2_moveTask_same_status (db : DB) (input : MoveTaskInput) (t : Task)
    (hids : NodupIds db) (hfind : getTaskById db input.id = some t)
    (hs : input.status = t.status) :
    moveTask db input = .ok
      ({ t with status := input.status, position := input.position },
        { db with tasks := db.tasks.map (sameMoveF t input) }) :=
  moveTask_same_eq hids hfind hs.symm

/-- C2 witness: moving task 1 of the `[A@0, B@1, C@2]` column to position 2. -/
theorem C2_moveTask_same_status_witness :
    NodupIds exABC ∧ getTaskById exABC 1 = some baseTask ∧
    moveTask exABC ⟨1, TaskStatus.todo, 2⟩ = .ok
      ({ baseTask with status := TaskStatus.todo, position := 2 },
        { exABC with
            tasks := exABC.tasks.map (sameMoveF baseTask ⟨1, TaskStatus.todo, 2⟩) }) :=
  ⟨by decide, by decide,
    C2_moveTask_same_status exABC ⟨1, TaskStatus.todo, 2⟩ baseTask
      (by decide) (by decide) (by decide)⟩

/-- C3: for an existing task `t` and a cross-status call `moveTask(t.id, s,
p)`: exactly the destination rows of `(t.project_id, s)` with position
`≥ p` are incremented, exactly the source rows of `(t.project_id,
t.status)` with position `> t.position` are decremented, `t` is set to
`(s, p)`, and no other row changes — the whole table equals the per-row map
`crossMoveF`, which states precisely these ranges. -/
theorem C3_moveTask_cross_status (db : DB) (input : MoveTaskInput) (t : Task)
    (hids : NodupIds db) (hfind : getTaskById db input.id = some t)
    (hs : input.status ≠ t.status) :
    moveTask db input = .ok
      ({ t with status := input.status, position := input.position },
        { db with tasks := db.tasks.map (crossMoveF t input) }) :=
  moveTask_cross_eq hids hfind (fun h => hs h.symm)

/-- C3 witness: moving task 1 from `todo` into `in_progress` at position 0. -/
theorem C3_moveTask_cross_status_witness :
    NodupIds exCrossDB ∧ getTaskById exCrossDB 1 = some baseTask ∧
    moveTask exCrossDB exCrossMove = .ok
      ({ baseTask with status := TaskStatus.in_progress, position := 0 },
        { exCrossDB with tasks := exCrossDB.tasks.map (crossMoveF baseTask exCrossMove) }) :=
  ⟨by decide, by decide,
    C3_moveTask_cross_status exCrossDB exCrossMove baseTask
      (by decide) (by decide) (by decide)⟩

/-- C5: `deleteTask` on a missing id returns `false` and changes no row; on
an existing task it removes exactly that row, decrements exactly the
remaining tasks of its `(project_id, status)` column with greater position
(the per-row map `deleteShiftF`), and returns `true`. -/
theorem C5_deleteTask_contract :
    (∀ (db : DB) (i : Nat), getTaskById db i = none → deleteTask db i = (false, db)) ∧
    (∀ (db : DB) (i : Nat) (t : Task), NodupIds db → getTaskById db i = some t →
      deleteTask db i =
        (true, { db with tasks := (db.tasks.erase t).map (deleteShiftF t) })) := by
  constructor
  · intro db i h
    unfold deleteTask
    rw [h]
  · intro db i t hids hfind
    exact deleteTask_eq hids hfind

/-- C5 witness: deleting a missing id mutates nothing; deleting task 2 of
`[A@0, B@1, C@2]` removes it and compacts the column. -/
theorem C5_deleteTask_contract_witness :
    (getTaskById exEmptyDB 99 = none ∧ deleteTask exEmptyDB 99 = (false, exEmptyDB)) ∧
    (NodupIds exABC ∧
      getTaskById exABC 2 = some { baseTask with id := 2, position := 1 } ∧
      deleteTask exABC 2 = (true,
        { exABC with
            tasks := (exABC.tasks.erase { baseTask with id := 2, position := 1 }).map
              (deleteShiftF { baseTask with id := 2, position := 1 }) })) :=
  ⟨⟨by decide, C5_deleteTask_contract.1 exEmptyDB 99 (by decide)⟩,
    ⟨by decide, by decide,
      C5_deleteTask_contract.2 exABC 2 { baseTask with id := 2, position := 1 }
        (by decide) (by decide)⟩⟩

/-- C6: `moveTask` issues its statements without any transaction, so they
do not take effect as a single atomic unit. At the concrete store holding
task 1 in `(1, todo)` at 0 and task 2 in `(1, in_progress)` at 0, the
cross-status move of task 1 issues three separate statements; the state
after the first committed statement alone differs both from the
pre-operation state and from the completed state — a cancellation there
leaves a partially shifted table, not a rollback. The last conjunct checks
the statement model against `moveTask` itself at this input. -/
theorem C6_move_not_atomic :
    (moveTaskStmts exCrossDB exCrossMove).length = 3 ∧
    movePrefixTasks exCrossDB exCrossMove 1 ≠ exCrossDB.tasks ∧
    movePrefixTasks exCrossDB exCrossMove 1 ≠ movePrefixTasks exCrossDB exCrossMove 3 ∧
    moveTask exCrossDB exCrossMove = .ok
      ({ baseTask with status := TaskStatus.in_progress, position := 0 },
        { exCrossDB with tasks := movePrefixTasks exCrossDB exCrossMove 3 }) :=
  ⟨rfl, by decide, by decide, by decide⟩

/-- C7 counterexample: `assignee_id = 0` is present and matches no user, yet
`createTask` succeeds and inserts a row — the source's truthiness check
`if (input.assignee_id)` skips the lookup for the falsy id 0 and
`input.assignee_id || null` stores NULL. -/
theorem C7_counterexample :
    (0 : Nat) ∉ exEmptyDB.users ∧
    createTask exEmptyDB exZeroAssignee =
      .ok (newCreated exEmptyDB exZeroAssignee,
        { exEmptyDB with
            tasks := exEmptyDB.tasks ++ [newCreated exEmptyDB exZeroAssignee],
            nextId := 2 }) ∧
    (newCreated exEmptyDB exZeroAssignee).assignee_id = none :=
  ⟨by decide, createTask_ok (by decide) (by decide) (by decide), by decide⟩

/-- C7 (amended): `createTask` fails before any write with the
distinguishable error when the project is missing; when the project exists
but the creator is missing; or when both exist and a present non-zero
`assignee_id` matches no user. A present `assignee_id` of 0 is falsy in the
source's truthiness check, so the lookup is skipped and the row is inserted
with a NULL assignee. -/
theorem C7_referential_guard (db : DB) (input : CreateTaskInput) :
    (¬ input.project_id ∈ db.projects →
      createTask db input = .error .projectNotFound) ∧
    (input.project_id ∈ db.projects → ¬ input.created_by ∈ db.users →
      createTask db input = .error .creatorNotFound) ∧
    (∀ a : Nat, input.project_id ∈ db.projects → input.created_by ∈ db.users →
      input.assignee_id = some a → a ≠ 0 → ¬ a ∈ db.users →
      createTask db input = .error .assigneeNotFound) ∧
    (input.project_id ∈ db.projects → input.created_by ∈ db.users →
      input.assignee_id = some 0 →
      createTask db input = .ok (newCreated db input,
        { db with tasks := db.tasks ++ [newCreated db input], nextId := db.nextId + 1 }) ∧
      (newCreated db input).assignee_id = none) := by
  refine ⟨createTask_err_project, createTask_err_creator, ?_, ?_⟩
  · intro a hp hu ha ha0 hmem
    refine createTask_err_assignee hp hu ?_ ?_
    · rw [ha]
      simpa [idTruthy] using ha0
    · rw [ha]
      simpa using hmem
  · intro hp hu ha
    have hfalsy : idTruthy input.assignee_id = false := by
      rw [ha]
      simp [idTruthy]
    constructor
    · exact createTask_ok hp hu (fun ht => absurd ht (by rw [hfalsy]; simp))
    · show orNullNat input.assignee_id = none
      rw [orNullNat, hfalsy]
      simp

/-- C7 witness: a draft naming the absent project 7 is rejected with
`ProjectNotFound`. -/
theorem C7_referential_guard_witness :
    ¬ (7 : Nat) ∈ exEmptyDB.projects ∧
    createTask exEmptyDB { baseCreate with project_id := 7 } =
      .error .projectNotFound :=
  ⟨by decide,
    (C7_referential_guard exEmptyDB { baseCreate with project_id := 7 }).1 (by decide)⟩

theorem find?_update_map {db : DB} {i : Nat} {t : Task}
    (hfind : getTaskById db i = some t) (g : Task → Task)
    (hgid : ∀ u, (g u).id = u.id) :
    (db.tasks.map (fun u => if u.id = i then g u else u)).find? (fun u => u.id == i) =
      some (g t) := by
  have hfid : ∀ u, ((fun u => if u.id = i then g u else u) u).id = u.id := by
    intro u
    by_cases h : u.id = i
    · simp only [if_pos h, hgid]
    · simp only [if_neg h]
  have hfind' : db.tasks.find? (fun u => u.id == i) = some t := hfind
  rw [find?_map_of_id _ _ _ hfid, hfind', Option.map_some']
  beta_reduce
  rw [if_pos (getTaskById_id hfind)]

/-- C9: an `updateTask` patch that changes status takes, for the new
position, the patch's explicit position as-is when one is supplied, and
otherwise `1 + MAX(position)` of the destination `(t.project_id, new
status)` column (0 when empty, i.e. append to end); in both cases only the
patched row changes — no other task's position is shifted. -/
theorem C9_updateTask_status_change (db : DB) (input : UpdateTaskInput) (t : Task)
    (hids : NodupIds db) (hfind : getTaskById db input.id = some t)
    (s : TaskStatus) (hst : input.status = some s) (hne : s ≠ t.status)
    (hass : ∀ a : Nat, input.assignee_id = some (some a) → a ∈ db.users) :
    ∃ t', updateTask db input = .ok (t',
        { db with tasks := db.tasks.map (fun u => if u.id = input.id then t' else u) }) ∧
      t'.position = (match input.position with
        | some q => q
        | none => (maxPos (column db t.project_id s)).getD (-1) + 1) ∧
      t'.status = s := by
  have hexmem := getTaskById_mem hfind
  have hexid := getTaskById_id hfind
  have hAm : (match input.assignee_id with
      | some (some a) => decide (¬ a ∈ db.users)
      | _ => false) = false := by
    rcases hao : input.assignee_id with - | oa
    · rfl
    · rcases oa with - | a
      · rfl
      · exact decide_eq_false (fun hn => hn (hass a hao))
  refine ⟨{ t with
      title := input.title.getD t.title
      description := input.description.getD t.description
      assignee_id := input.assignee_id.getD t.assignee_id
      priority := input.priority.getD t.priority
      status := s
      due_date := input.due_date.getD t.due_date
      position := input.position.getD
        ((maxPos (column db t.project_id s)).getD (-1) + 1) }, ?_, ?_, ?_⟩
  · simp only [updateTask, hfind, hAm, hst]
    rw [if_neg (by simp)]
    rw [if_pos hne]
    have hmain := find?_update_map hfind (fun u =>
      { u with
        title := input.title.getD u.title
        description := input.description.getD u.description
        assignee_id := input.assignee_id.getD u.assignee_id
        priority := input.priority.getD u.priority
        status := (some s).getD u.status
        due_date := input.due_date.getD u.due_date
        position := (some (input.position.getD
          ((maxPos (column db t.project_id s)).getD (-1) + 1))).getD u.position })
      (fun u => rfl)
    rw [hmain]
    have hcong : db.tasks.map (fun u => if u.id = input.id then
        { u with
          title := input.title.getD u.title
          description := input.description.getD u.description
          assignee_id := input.assignee_id.getD u.assignee_id
          priority := input.priority.getD u.priority
          status := (some s).getD u.status
          due_date := input.due_date.getD u.due_date
          position := (some (input.position.getD
            ((maxPos (column db t.project_id s)).getD (-1) + 1))).getD u.position }
        else u) =
        db.tasks.map (fun u => if u.id = input.id then
          { t with
            title := input.title.getD t.title
            description := input.description.getD t.description
            assignee_id := input.assignee_id.getD t.assignee_id
            priority := input.priority.getD t.priority
            status := s
            due_date := input.due_date.getD t.due_date
            position := input.position.getD
              ((maxPos (column db t.project_id s)).getD (-1) + 1) }
          else u) := by
      refine List.map_congr_left ?_
      intro u hu
      by_cases h : u.id = input.id
      · have he := eq_of_same_id hids hu hexmem (h.trans hexid.symm)
        subst he
        rw [if_pos h, if_pos h]
        rfl
      · rw [if_neg h, if_neg h]
    rw [hcong]
    rfl
  · cases input.position <;> simp
  · rfl

/-- C9 witness: patching task 1 of `{X:(todo,0), Y:(in_progress,0)}` to
`in_progress` with no explicit position. -/
theorem C9_updateTask_status_change_witness :
    NodupIds exCrossDB ∧ getTaskById exCrossDB 1 = some baseTask ∧
    exUpdate.status = some TaskStatus.in_progress ∧
    TaskStatus.in_progress ≠ baseTask.status ∧
    (∃ t', updateTask exCrossDB exUpdate = .ok (t',
        { exCrossDB with
            tasks := exCrossDB.tasks.map (fun u => if u.id = exUpdate.id then t' else u) }) ∧
      t'.position = (match exUpdate.position with
        | some q => q
        | none => (maxPos (column exCrossDB baseTask.project_id
            TaskStatus.in_progress)).getD (-1) + 1) ∧
      t'.status = TaskStatus.in_progress) :=
  ⟨by decide, by decide, rfl, by decide,
    C9_updateTask_status_change exCrossDB exUpdate baseTask (by decide) (by decide)
      TaskStatus.in_progress rfl (by decide) (fun a h => Option.noConfusion h)⟩

/-- Restricting unique `(project_id, status, position)` keys to one column
gives duplicate-free positions there. -/
theorem posNodup_of_uniqueKeys {db : DB} (h : UniqueKeys db) (p : Nat)
    (s : TaskStatus) : (posns (column db p s)).Nodup := by
  have h1 : ((column db p s).map
      (fun t => (t.project_id, t.status, t.position))).Nodup := by
    refine List.Nodup.sublist ?_ h
    exact List.Sublist.map _ (List.filter_sublist _)
  have h2 : posns (column db p s) =
      ((column db p s).map (fun t => (t.project_id, t.status, t.position))).map
        (fun k => k.2.2) := by
    unfold posns
    rw [List.map_map]
    rfl
  rw [h2]
  refine List.Nodup.map_on ?_ h1
  intro x hx y hy hxy
  obtain ⟨a, ha, rfl⟩ := List.mem_map.mp hx
  obtain ⟨b, hb, rfl⟩ := List.mem_map.mp hy
  obtain ⟨-, hap, has⟩ := mem_column.mp ha
  obtain ⟨-, hbp, hbs⟩ := mem_column.mp hb
  simp only at hxy
  simp only [hap, has, hbp, hbs, hxy]

/-- Rebuilding unique keys: rows with pairwise-distinct values and
duplicate-free positions in every column have pairwise-distinct keys. -/
theorem uniqueKeys_of_posNodup {db : DB} (hnd : db.tasks.Nodup)
    (h : ∀ p s, (posns (column db p s)).Nodup) : UniqueKeys db := by
  refine List.Nodup.map_on ?_ hnd
  intro u hu v hv hkey
  have h1 : u.project_id = v.project_id := congrArg (fun k => k.1) hkey
  have h2 : u.status = v.status := congrArg (fun k => k.2.1) hkey
  have h3 : u.position = v.position := congrArg (fun k => k.2.2) hkey
  have hu' : u ∈ column db u.project_id u.status := mem_column.mpr ⟨hu, rfl, rfl⟩
  have hv' : v ∈ column db u.project_id u.status :=
    mem_column.mpr ⟨hv, h1.symm, h2.symm⟩
  exact List.inj_on_of_nodup_map (h u.project_id u.status) hu' hv' h3

/-- C10: from any store state whose rows obey the primary-key constraint
and share no `(project_id, status, position)` triple — dense or not — each
of `createTask`, `moveTask` (any target position, including one beyond the
destination column's length) and `deleteTask` again yields a state in which
no two rows share `(project_id, status, position)`. -/
theorem C10_uniqueness_preserved (db : DB) (op : Op)
    (hids : NodupIds db) (huniq : UniqueKeys db) :
    UniqueKeys (applyOp db op) := by
  have hpn := posNodup_of_uniqueKeys huniq
  cases op with
  | create input =>
    by_cases h1 : input.project_id ∈ db.projects
    swap
    · have he := createTask_err_project h1
      simp only [applyOp, he]
      exact huniq
    by_cases h2 : input.created_by ∈ db.users
    swap
    · have he := createTask_err_creator h1 h2
      simp only [applyOp, he]
      exact huniq
    by_cases h3 : idTruthy input.assignee_id = true ∧
        ¬ input.assignee_id.getD 0 ∈ db.users
    · have he := createTask_err_assignee h1 h2 h3.1 h3.2
      simp only [applyOp, he]
      exact huniq
    · have hok := createTask_ok h1 h2 (fun ht => by
        by_contra hn
        exact h3 ⟨ht, hn⟩)
      simp only [applyOp, hok]
      refine uniqueKeys_of_posNodup ?_ ?_
      · show (db.tasks ++ [newCreated db input]).Nodup
        rw [List.nodup_append]
        refine ⟨tasks_nodup hids, List.nodup_singleton _, ?_⟩
        intro a ha hax
        simp only [List.mem_singleton] at hax
        subst hax
        have hmm : newCreated db input ∈ column db input.project_id input.status :=
          mem_column.mpr ⟨ha, rfl, rfl⟩
        exact nextPos_not_mem (List.mem_map.mpr ⟨_, hmm, rfl⟩)
      · intro p s
        rw [column_of_append p s]
        by_cases hc : (newCreated db input).project_id = p ∧
            (newCreated db input).status = s
        · rw [if_pos hc]
          rw [newCreated_project, newCreated_status] at hc
          obtain ⟨hcp, hcs⟩ := hc
          have hp' : p = input.project_id := hcp.symm
          have hs' : s = input.status := hcs.symm
          subst hp' hs'
          have h8 : posns (column db input.project_id input.status ++
              [newCreated db input]) =
              posns (column db input.project_id input.status) ++
                [(newCreated db input).position] := by
            simp [posns]
          rw [h8]
          exact nodup_append_of_not_mem
            (by rw [newCreated_position]; exact nextPos_not_mem) (hpn _ _)
        · rw [if_neg hc]
          simpa using hpn p s
  | move input =>
    cases hfind : getTaskById db input.id with
    | none =>
      have he : moveTask db input = .error .taskNotFound := by
        unfold moveTask
        rw [hfind]
      simp only [applyOp, he]
      exact huniq
    | some ex =>
      by_cases hs : ex.status = input.status
      · have hmv := moveTask_same_eq hids hfind hs
        simp only [applyOp, hmv]
        refine uniqueKeys_of_posNodup
          (tasks_nodup (nodupIds_map (sameMoveF_id ex input) hids)) ?_
        intro p s
        by_cases hc : p = ex.project_id ∧ s = input.status
        · obtain ⟨rfl, rfl⟩ := hc
          obtain ⟨hp1, hp2⟩ := posns_column_sameMoveF_target hids hfind hs
          have hn2 := hp2.nodup (hpn _ _)
          exact (hp1.symm).nodup
            (nodup_same_shift (List.nodup_cons.mp hn2).1 (List.nodup_cons.mp hn2).2)
        · rw [column_sameMoveF_other hids hfind hs p s hc]
          exact hpn p s
      · have hmv := moveTask_cross_eq hids hfind hs
        simp only [applyOp, hmv]
        refine uniqueKeys_of_posNodup
          (tasks_nodup (nodupIds_map (crossMoveF_id ex input) hids)) ?_
        intro p s
        by_cases hc1 : p = ex.project_id ∧ s = input.status
        · obtain ⟨rfl, rfl⟩ := hc1
          have hp1 := posns_column_crossMoveF_dest hids hfind hs
          exact (hp1.symm).nodup (nodup_tail_shift (hpn _ _))
        · by_cases hc2 : p = ex.project_id ∧ s = ex.status
          · obtain ⟨rfl, rfl⟩ := hc2
            obtain ⟨hp1, hp2⟩ := posns_column_crossMoveF_src hids hfind hs
            have hn2 := hp2.nodup (hpn _ _)
            exact (hp1.symm).nodup
              (nodup_above_shift (List.nodup_cons.mp hn2).1 (List.nodup_cons.mp hn2).2)
          · rw [column_crossMoveF_other hids hfind p s hc1 hc2]
            exact hpn p s
  | del i =>
    cases hfind : getTaskById db i with
    | none =>
      have he : deleteTask db i = (false, db) := by
        unfold deleteTask
        rw [hfind]
      simp only [applyOp, he]
      exact huniq
    | some ex =>
      have hdel := deleteTask_eq hids hfind
      simp only [applyOp, hdel]
      refine uniqueKeys_of_posNodup
        (tasks_nodup (nodupIds_erase_map (deleteShiftF_id ex) hids)) ?_
      intro p s
      by_cases hc : p = ex.project_id ∧ s = ex.status
      · obtain ⟨rfl, rfl⟩ := hc
        obtain ⟨hp1, hp2⟩ := posns_column_delete_target hids hfind
        have hn2 := hp2.nodup (hpn _ _)
        exact (hp1.symm).nodup
          (nodup_above_shift (List.nodup_cons.mp hn2).1 (List.nodup_cons.mp hn2).2)
      · have hcp := (column_delete_other hids hfind p s hc).map (fun t => t.position)
        have hcp2 : (posns (column
            { db with tasks := (db.tasks.erase ex).map (deleteShiftF ex) } p s)).Perm
            (posns (column db p s)) := hcp
        exact hcp2.symm.nodup (hpn p s)

/-- C10 witness: a `moveTask` far beyond the destination column's length
(position 99 in a one-task column) still preserves key uniqueness. -/
theorem C10_uniqueness_preserved_witness :
    NodupIds exSparseDB ∧ UniqueKeys exSparseDB ∧
    UniqueKeys (applyOp exSparseDB (.move ⟨1, TaskStatus.todo, 99⟩)) :=
  ⟨by decide, by decide,
    C10_uniqueness_preserved exSparseDB (.move ⟨1, TaskStatus.todo, 99⟩)
      (by decide) (by decide)⟩

end Kanban
